import Mathlib

/-!
# midi2melody: note reconstruction and monophonic reduction

A shallow embedding of `src/V3/temp/temp_driver.cpp`.

* A MIDI event is its absolute tick (a C++ `int`) and its message bytes.
  Ticks are integers here and `tick - state[pitch]` is the exact difference:
  the ticks of a MIDI file are not negative, and the difference of two values
  of `[0, 2^31)` fits an `int`.
* The scan of `convertToMelody` is a state-passing function over the 128-entry
  table `state` (entry `-1` means: no pending note-on) and the output vector
  `melody`.  Reading a byte the message does not have, or indexing the table
  outside `0..127`, is undefined behaviour in the source; the embedding makes
  it explicit as the result `none`.
* The fields `tick` and `duration` of `Melody` are doubles in the source.  They
  only ever receive values computed in `int` arithmetic by `convertToMelody`,
  on which the double operations of `printMelody` (`+`, `-`, `==`, `>`) are
  exact; they are integers here.  The division by `tpq` at the output is taken
  as the exact quotient in `ℚ`.
* `qsort` belongs to the C library: its contract (the result is a permutation
  of the input, ascending for the comparator, equal elements in unspecified
  order) is `IsQsortResult`; `sortMelody` is one executable instance.
* `cacheMelody` is embedded like `printMelody`; `printLoopKinds` is the loop of
  `printMelody` with every line marked by the print statement that wrote it.
* The emission direction (`note_on` ... `add_progression`) writes to a file
  that is the list of the `addEvent` calls made so far.  The classes `Note`,
  `Chord`, `ChordProgression` and the MidiFile library are not among the
  sources; they appear as records of the getters the code calls.  Every
  `float` operation rounds its result by a function `fl` that the emission
  functions take as a parameter; `roundF32` is the rounding of IEEE binary32.
  Tone and velocity are narrowed to `uchar` when they are stored.
-/

namespace Midi2Melody

/-! ## Data model -/

/-- Class `Melody` of the source: one reconstructed note. -/
structure Melody where
  tick : Int
  duration : Int
  pitch : Int
deriving DecidableEq

/-- One event of the selected track: `midifile[track][i].tick` and the message
bytes `midifile[track][i][0]`, `[1]`, `[2]`, ... -/
structure MidiEvent where
  tick : Int
  bytes : List Nat
deriving DecidableEq

/-- One printed line: the time in quarter notes and the pitch (0 for silence). -/
structure Segment where
  time : ℚ
  pitch : Int
deriving DecidableEq

/-! ## convertToMelody -/

/-- The table `vector<int> state(128)` after the initialisation loop. -/
def initState : List Int := List.replicate 128 (-1)

/-- The code at label `noteoff:`; skip the event when the pitch has no pending
note-on, else push the interval and clear the entry. -/
def noteoff (state : List Int) (melody : List Melody) (pitch : Nat) (tick : Int) :
    Option (List Int × List Melody) :=
  match state[pitch]? with
  | none => none
  | some s =>
    if s = -1 then some (state, melody)
    else some (state.set pitch (-1),
               melody ++ [{ tick := s, duration := tick - s, pitch := (pitch : Int) }])

/-- One iteration of the event loop of `convertToMelody`. -/
def scanEvent (state : List Int) (melody : List Melody) (ev : MidiEvent) :
    Option (List Int × List Melody) :=
  match ev.bytes[0]? with
  | none => none
  | some b0 =>
    let command := b0 &&& 0xf0
    if command = 0x90 then
      match ev.bytes[1]?, ev.bytes[2]? with
      | some pitch, some velocity =>
        if velocity = 0 then noteoff state melody pitch ev.tick
        else if pitch < state.length then some (state.set pitch ev.tick, melody)
        else none
      | _, _ => none
    else if command = 0x80 then
      match ev.bytes[1]? with
      | some pitch => noteoff state melody pitch ev.tick
      | none => none
    else some (state, melody)

/-- The event loop of `convertToMelody`, started in a given table and output. -/
def scanFrom (state : List Int) (melody : List Melody) :
    List MidiEvent → Option (List Int × List Melody)
  | [] => some (state, melody)
  | ev :: rest =>
    match scanEvent state melody ev with
    | none => none
    | some r => scanFrom r.1 r.2 rest

/-- Function `convertToMelody` on the events of the selected track: the
vector `melody` it leaves behind. -/
def convertToMelody (events : List MidiEvent) : Option (List Melody) :=
  (scanFrom initState [] events).map Prod.snd

/-! ## Predicates on events -/

/-- The value `midifile[track][i][0] & 0xf0`, when the message has a byte. -/
def command (ev : MidiEvent) : Option Nat :=
  ev.bytes[0]?.map (fun b0 => b0 &&& 0xf0)

/-- A note-on for pitch `p`: status nibble 0x9 and a velocity above 0. -/
def IsNoteOn (ev : MidiEvent) (p : Nat) : Prop :=
  command ev = some 0x90 ∧ ev.bytes[1]? = some p ∧ ∃ v, ev.bytes[2]? = some v ∧ 0 < v

/-- A note-off for pitch `p`: status nibble 0x8, or status nibble 0x9 with
velocity 0. -/
def IsNoteOff (ev : MidiEvent) (p : Nat) : Prop :=
  (command ev = some 0x80 ∧ ev.bytes[1]? = some p) ∨
  (command ev = some 0x90 ∧ ev.bytes[1]? = some p ∧ ev.bytes[2]? = some 0)

/-- The event is a note-on or a note-off message whose pitch byte is `p`. -/
def Touches (ev : MidiEvent) (p : Nat) : Prop :=
  (command ev = some 0x90 ∨ command ev = some 0x80) ∧ ev.bytes[1]? = some p

/-- A message the scan can read: it has a status byte, a note-on has a pitch
byte below 128 and a velocity byte, a note-off has a pitch byte below 128. -/
def WellFormedEvent (ev : MidiEvent) : Prop :=
  (∃ c, command ev = some c) ∧
  (command ev = some 0x90 → (∃ p, ev.bytes[1]? = some p ∧ p < 128) ∧ ∃ v, ev.bytes[2]? = some v) ∧
  (command ev = some 0x80 → ∃ p, ev.bytes[1]? = some p ∧ p < 128)

/-- Every event of the stream is well formed. -/
def WellFormed (events : List MidiEvent) : Prop :=
  ∀ ev ∈ events, WellFormedEvent ev

/-- Event `b` is the explicit note-off (status nibble 0x8) standing for the
note-on with velocity 0 `a` (status nibble 0x9): same pitch byte, same tick. -/
def Alias (a b : MidiEvent) : Prop :=
  command a = some 0x90 ∧ a.bytes[2]? = some 0 ∧ command b = some 0x80 ∧
    b.bytes[1]? = a.bytes[1]? ∧ b.tick = a.tick

/-- Interval `m` is the one pushed while the scan, started in `state` and
`melody`, handles event `ev` of `events`: `ev` is a note-off for the pitch of
`m` and its tick is where `m` ends. -/
def ClosedBy (state : List Int) (melody : List Melody) (events : List MidiEvent)
    (m : Melody) : Prop :=
  ∃ pre ev post st acc st1, events = pre ++ ev :: post ∧
    scanFrom state melody pre = some (st, acc) ∧
    scanEvent st acc ev = some (st1, acc ++ [m]) ∧
    (∃ p, IsNoteOff ev p ∧ m.pitch = (p : Int)) ∧
    m.tick + m.duration = ev.tick

/-! ## sortMelody -/

/-- Comparator `notecompare` of the source. -/
def notecompare (aa bb : Melody) : Int :=
  if aa.tick < bb.tick then -1
  else if aa.tick > bb.tick then 1
  else
    if aa.pitch > bb.pitch then 1
    else if aa.pitch < bb.pitch then -1
    else 0

/-- Contract of the C library `qsort` called with comparator `cmp`: the
result holds the same elements and no element compares greater than a later
one.  The order of elements that compare equal is unspecified. -/
def IsQsortResult {α : Type} (cmp : α → α → Int) (input output : List α) : Prop :=
  output.Perm input ∧ output.Pairwise (fun x y => cmp x y ≤ 0)

/-- The order `notecompare` induces: `aa` may stand before `bb`. -/
def noteLE (aa bb : Melody) : Prop := notecompare aa bb ≤ 0

instance noteLE_decidable : DecidableRel noteLE :=
  fun aa bb => inferInstanceAs (Decidable (notecompare aa bb ≤ 0))

/-- Function `sortMelody`: `qsort` with `notecompare`, run as an insertion
sort. -/
def sortMelody (melody : List Melody) : List Melody :=
  melody.insertionSort noteLE

/-! ## printMelody -/

/-- The `for` loop of `printMelody` over the vector with the sentinel at its
end: iteration `i` looks at `melody[i]` (here `a`) and `melody[i+1]` (here `b`). -/
def printLoop (tpq : Int) : List Melody → List Segment
  | [] => []
  | [_] => []
  | a :: b :: rest =>
    let delta := b.tick - a.tick
    if delta = 0 then printLoop tpq (b :: rest)
    else
      { time := (a.tick : ℚ) / (tpq : ℚ), pitch := a.pitch } ::
        ((if delta > a.duration then
            [{ time := ((b.tick - (delta - a.duration) : Int) : ℚ) / (tpq : ℚ), pitch := 0 }]
          else []) ++ printLoop tpq (b :: rest))

/-- The element `temp` that `printMelody` pushes behind the last interval. -/
def sentinel (last : Melody) : Melody :=
  { tick := last.tick + last.duration, pitch := 0, duration := 0 }

/-- Function `printMelody`: the printed lines, and the vector `melody` as the
call leaves it. -/
def printMelody (melody : List Melody) (tpq : Int) : List Segment × List Melody :=
  match melody.getLast? with
  | none => ([], melody)
  | some last =>
    let melody1 := melody ++ [sentinel last]
    (printLoop tpq melody1 ++ [{ time := ((sentinel last).tick : ℚ) / (tpq : ℚ), pitch := 0 }],
     melody1)

/-- Tables of the same size that hold the same entry at every index other than `P`. -/
def AgreeOff (P : Nat) (st1 st2 : List Int) : Prop :=
  st1.length = st2.length ∧ ∀ i : Nat, i ≠ P → st1[i]? = st2[i]?

/-- Events `a` and `b` differ at most in the low (channel) nibble of the status
byte: same tick, same data bytes, same value of `status & 0xf0`. -/
def SameUpToChannel (a b : MidiEvent) : Prop :=
  a.tick = b.tick ∧ ∃ s1 s2 data, a.bytes = s1 :: data ∧ b.bytes = s2 :: data ∧
    s1 &&& 0xf0 = s2 &&& 0xf0

/-- The index with which an iteration of the event loop reads and writes the
table `state`: the pitch byte `midifile[track][i][1]` of a message with status
nibble 0x9 (read together with the velocity byte) or 0x8.  Other messages do not
touch the table. -/
def tableIndex (ev : MidiEvent) : Option Nat :=
  match ev.bytes[0]? with
  | none => none
  | some b0 =>
    if b0 &&& 0xf0 = 0x90 then
      match ev.bytes[1]?, ev.bytes[2]? with
      | some pitch, some _ => some pitch
      | _, _ => none
    else if b0 &&& 0xf0 = 0x80 then ev.bytes[1]?
    else none

/-- The event has its status byte, and when it is a note-on or a note-off
message it carries at least two data bytes, the first of them (the pitch byte)
in `[0, 127]`. -/
def NoteBytesInRange (ev : MidiEvent) : Prop :=
  (∃ c, command ev = some c) ∧
  ((command ev = some 0x90 ∨ command ev = some 0x80) →
    3 ≤ ev.bytes.length ∧ ∃ p, ev.bytes[1]? = some p ∧ p ≤ 127)

/-! ## cacheMelody -/

/-- The `for` loop of `cacheMelody` over the vector with the sentinel at its
end: the loop of `printMelody` with `out.push_back(melody[i].pitch)` in the
place of the two print statements. -/
def cacheLoop : List Melody → List Int
  | [] => []
  | [_] => []
  | a :: b :: rest =>
    let delta := b.tick - a.tick
    if delta = 0 then cacheLoop (b :: rest)
    else a.pitch :: cacheLoop (b :: rest)

/-- Function `cacheMelody`: the returned vector of pitches, and the vector
`melody` as the call leaves it.  The parameter `tpq` is not used by the source. -/
def cacheMelody (melody : List Melody) (_tpq : Int) : List Int × List Melody :=
  match melody.getLast? with
  | none => ([0], melody)
  | some last => (cacheLoop (melody ++ [sentinel last]), melody ++ [sentinel last])

/-- Which of the three print statements of `printMelody` wrote a line: the
note line of the loop, the silence line of the loop, the closing line behind
the loop. -/
inductive LineKind where
  | note
  | silence
  | closing
deriving DecidableEq

/-- The loop of `printMelody` once more, every line together with the print
statement that wrote it. -/
def printLoopKinds (tpq : Int) : List Melody → List (LineKind × Segment)
  | [] => []
  | [_] => []
  | a :: b :: rest =>
    let delta := b.tick - a.tick
    if delta = 0 then printLoopKinds tpq (b :: rest)
    else
      (LineKind.note, { time := (a.tick : ℚ) / (tpq : ℚ), pitch := a.pitch }) ::
        ((if delta > a.duration then
            [(LineKind.silence,
              { time := ((b.tick - (delta - a.duration) : Int) : ℚ) / (tpq : ℚ), pitch := 0 })]
          else []) ++ printLoopKinds tpq (b :: rest))

/-- The lines of `printMelody`, every line together with the print statement
that wrote it. -/
def printMelodyKinds (melody : List Melody) (tpq : Int) : List (LineKind × Segment) :=
  match melody.getLast? with
  | none => []
  | some last =>
    printLoopKinds tpq (melody ++ [sentinel last]) ++
      [(LineKind.closing, { time := ((sentinel last).tick : ℚ) / (tpq : ℚ), pitch := 0 })]

/-- In the words of the specification: the pitches of exactly those elements
of the vector whose successor has a different onset tick, in order. -/
def pitchesBeforeOnsetChange (l : List Melody) : List Int :=
  ((l.zip l.tail).filter (fun ab => ab.2.tick ≠ ab.1.tick)).map (fun ab => ab.1.pitch)

/-! ## Emission: note_on, note_off, add_note, add_notes, add_progression -/

/-- Macro `TPQ`: ticks per quarter note of the emission direction. -/
def TPQ : Int := 120

/-- The integer nearest to `x`, the even one of the two when `x` lies half way. -/
def roundNearestEven (x : ℚ) : Int :=
  let f := ⌊x⌋
  if x - f < 1 / 2 then f
  else if 1 / 2 < x - f then f + 1
  else if f % 2 = 0 then f else f + 1

/-- The value of type `float` (IEEE binary32, rounding to nearest, ties to
even) that is nearest to `q`: 24 significant bits, smallest step `2^-149`.
Values beyond the largest `float` are not covered. -/
def roundF32 (q : ℚ) : ℚ :=
  if q = 0 then 0
  else
    let e : Int := max (Int.log 2 |q| - 23) (-149)
    (if 0 < q then 1 else -1) * (roundNearestEven (|q| / 2 ^ e) : ℚ) * 2 ^ e

/-- The conversion of an `int` or a `char` to `uchar` when it is stored in the
`vector<uchar>` of a message: the value modulo 256. -/
def toUchar (x : Int) : Nat := (x % 256).toNat

/-- Modelled from the spec: class `Note` of `CMMG.h`, which is not among the
sources.  The code uses its getters `get_tone`, `get_vel` and `get_length` only:
tone and velocity as they are handed to the `int` and `char` parameters of
`note_on`, the length as a number of quarter notes (a `float`). -/
structure Note where
  tone : Int
  vel : Int
  length : ℚ

/-- Modelled from the spec: class `Chord` of `CMMG.h`, not among the sources: a
group of notes `get_chord()` and a length in quarter notes `get_length()`. -/
structure Chord where
  chord : List Note
  length : ℚ

/-- Modelled from the spec: class `ChordProgression` of `CMMG.h`, not among the
sources: the chords `get_cp()` in their order. -/
structure ChordProgression where
  cp : List Chord

/-- The arguments of one call `file->addEvent(channel, time, midievent)`. -/
structure AddedEvent where
  channel : Int
  time : ℚ
  midievent : List Nat
deriving DecidableEq

/-- Modelled from the spec: `MidiFile::addEvent` of the MidiFile library, not
among the sources.  The sink accepts timed events; the file is the list of the
calls made so far, in their order. -/
def addEvent (file : List AddedEvent) (channel : Int) (time : ℚ) (midievent : List Nat) :
    List AddedEvent :=
  file ++ [{ channel := channel, time := time, midievent := midievent }]

/-- Function `note_on` of the source; `note` and `velocity` are narrowed to
`uchar` when they are stored in the message. -/
def note_on (file : List AddedEvent) (channel : Int) (time : ℚ) (note velocity : Int) :
    List AddedEvent :=
  addEvent file channel time [0x90, toUchar note, toUchar velocity]

/-- Function `note_off` of the source; `note` and `velocity` are narrowed to
`uchar` when they are stored in the message. -/
def note_off (file : List AddedEvent) (channel : Int) (time : ℚ) (note velocity : Int) :
    List AddedEvent :=
  addEvent file channel time [0x80, toUchar note, toUchar velocity]

/-- Function `add_note` of the source.  Both calls pass the literal `1` where
the parameter `channel` would go.  `fl` is the rounding that every `float`
operation applies to its result: `roundF32` for IEEE binary32, the identity
when the times are taken as exact rationals. -/
def add_note (fl : ℚ → ℚ) (file : List AddedEvent) (_channel : Int) (note : Note)
    (time : ℚ) : List AddedEvent :=
  let file1 := note_on file 1 (fl (time * (TPQ : ℚ))) note.tone note.vel
  note_off file1 1 (fl (fl (time + note.length) * (TPQ : ℚ))) note.tone note.vel

/-- Function `add_notes` of the source: every note at the same time. -/
def add_notes (fl : ℚ → ℚ) (file : List AddedEvent) (channel : Int) (notes : List Note)
    (time : ℚ) : List AddedEvent :=
  notes.foldl (fun f note => add_note fl f channel note time) file

/-- Function `add_consecutive_notes` of the source: every note where the note
before it ends (`time += note.get_length()`). -/
def add_consecutive_notes (fl : ℚ → ℚ) (file : List AddedEvent) (channel : Int)
    (notes : List Note) (init_time : ℚ) : List AddedEvent :=
  (notes.foldl
    (fun (st : List AddedEvent × ℚ) note =>
      (add_note fl st.1 channel note st.2, fl (st.2 + note.length)))
    (file, init_time)).1

/-- Function `add_progression` of the source: every chord where the chord
before it ends (`time += c.get_length()`). -/
def add_progression (fl : ℚ → ℚ) (file : List AddedEvent) (channel : Int)
    (cp : ChordProgression) (init_time : ℚ) : List AddedEvent :=
  (cp.cp.foldl
    (fun (st : List AddedEvent × ℚ) c =>
      (add_notes fl st.1 channel c.chord st.2, fl (st.2 + c.length)))
    (file, init_time)).1

/-- In the words of the specification: for every chord `c_k` of the progression
and every note `x` of `c_k`, one note-on event (status 0x90, data `x.tone`,
`x.vel`) at time `(t0 + sum of the lengths of c_0 .. c_(k-1)) * 120` and one
note-off event (status 0x80) at time `(t0 + that sum + x.length) * 120`; listed
as pairs of time and message. -/
def placedEvents (cp : List Chord) (t0 : ℚ) : List (ℚ × List Int) :=
  (List.range cp.length).flatMap (fun k =>
    match cp[k]? with
    | none => []
    | some c =>
      c.chord.flatMap (fun x =>
        [((t0 + ((cp.take k).map Chord.length).sum) * 120, [0x90, x.tone, x.vel]),
         ((t0 + ((cp.take k).map Chord.length).sum + x.length) * 120,
          [0x80, x.tone, x.vel])]))

/-- The conversion of a `float` time to the `int` tick that the file stores:
the fraction is dropped. -/
def toTick (time : ℚ) : Int :=
  if 0 ≤ time then ⌊time⌋ else ⌈time⌉

/-- Modelled from the spec: the events that the Event Stream Source hands to
`convertToMelody` when it reads back what was added to the file: the same
messages in the same order, the times as ticks. -/
def storedEvents (file : List AddedEvent) : List MidiEvent :=
  file.map (fun e => { tick := toTick e.time, bytes := e.midievent })

/-! ## Basic facts on the scan -/

theorem noteoff_acc (state : List Int) (melody : List Melody) (pitch : Nat) (tick : Int) :
    noteoff state melody pitch tick =
      (noteoff state [] pitch tick).map (fun r => (r.1, melody ++ r.2)) := by
  unfold noteoff
  cases h : state[pitch]? with
  | none => simp
  | some s => by_cases hs : s = -1 <;> simp [hs]

theorem scanEvent_acc (state : List Int) (melody : List Melody) (ev : MidiEvent) :
    scanEvent state melody ev =
      (scanEvent state [] ev).map (fun r => (r.1, melody ++ r.2)) := by
  unfold scanEvent
  cases h0 : ev.bytes[0]? with
  | none => simp
  | some b0 =>
    cases h1 : ev.bytes[1]? with
    | none => simp; split_ifs <;> simp
    | some p =>
      cases h2 : ev.bytes[2]? with
      | none => simp; split_ifs <;> simp [noteoff_acc state melody]
      | some v => simp; split_ifs <;> simp [noteoff_acc state melody]

theorem scanFrom_acc (events : List MidiEvent) :
    ∀ (state : List Int) (melody : List Melody),
      scanFrom state melody events =
        (scanFrom state [] events).map (fun r => (r.1, melody ++ r.2)) := by
  induction events with
  | nil => intro state melody; simp [scanFrom]
  | cons ev rest ih =>
    intro state melody
    simp only [scanFrom]
    rw [scanEvent_acc state melody ev]
    cases h : scanEvent state [] ev with
    | none => simp
    | some r =>
      simp only [Option.map_some']
      rw [ih r.1 (melody ++ r.2), ih r.1 r.2]
      cases scanFrom r.1 [] rest <;> simp [List.append_assoc]

theorem scanFrom_append (xs ys : List MidiEvent) :
    ∀ (state : List Int) (melody : List Melody),
      scanFrom state melody (xs ++ ys) =
        (scanFrom state melody xs).bind (fun r => scanFrom r.1 r.2 ys) := by
  induction xs with
  | nil => intro state melody; simp [scanFrom]
  | cons ev rest ih =>
    intro state melody
    simp only [List.cons_append, scanFrom]
    cases h : scanEvent state melody ev with
    | none => simp
    | some r => simpa using ih r.1 r.2

theorem scanEvent_noteOn {ev : MidiEvent} {p : Nat} (state : List Int) (melody : List Melody)
    (h : IsNoteOn ev p) (hp : p < state.length) :
    scanEvent state melody ev = some (state.set p ev.tick, melody) := by
  obtain ⟨hc, h1, v, h2, hv⟩ := h
  unfold command at hc
  unfold scanEvent
  cases h0 : ev.bytes[0]? with
  | none => simp [h0] at hc
  | some b0 =>
    simp only [h0, Option.map_some', Option.some.injEq] at hc
    have hv0 : v ≠ 0 := by omega
    simp [hc, h1, h2, hv0, hp]

theorem scanEvent_noteOff {ev : MidiEvent} {p : Nat} (state : List Int) (melody : List Melody)
    (h : IsNoteOff ev p) :
    scanEvent state melody ev = noteoff state melody p ev.tick := by
  unfold scanEvent
  rcases h with ⟨hc, h1⟩ | ⟨hc, h1, h2⟩
  all_goals
    unfold command at hc
    cases h0 : ev.bytes[0]? with
    | none => simp [h0] at hc
    | some b0 =>
      simp only [h0, Option.map_some', Option.some.injEq] at hc
      simp [hc, h1, *]

/-- What one iteration of the event loop can do. -/
theorem scanEvent_cases {state : List Int} {melody : List Melody} {ev : MidiEvent}
    {r : List Int × List Melody} (h : scanEvent state melody ev = some r) :
    (r = (state, melody)) ∨
    (∃ p, IsNoteOn ev p ∧ p < state.length ∧ r = (state.set p ev.tick, melody)) ∨
    (∃ p s, IsNoteOff ev p ∧ state[p]? = some s ∧ s ≠ -1 ∧
      r = (state.set p (-1), melody ++ [{ tick := s, duration := ev.tick - s, pitch := (p : Int) }])) := by
  have hoff : ∀ p, IsNoteOff ev p → noteoff state melody p ev.tick = some r →
      (r = (state, melody)) ∨
      (∃ p s, IsNoteOff ev p ∧ state[p]? = some s ∧ s ≠ -1 ∧
        r = (state.set p (-1),
             melody ++ [{ tick := s, duration := ev.tick - s, pitch := (p : Int) }])) := by
    intro p hp hr
    unfold noteoff at hr
    cases hs : state[p]? with
    | none => simp [hs] at hr
    | some s =>
      by_cases hs1 : s = -1
      · simp [hs, hs1] at hr
        exact Or.inl hr.symm
      · simp [hs, hs1] at hr
        exact Or.inr ⟨p, s, hp, hs, hs1, hr.symm⟩
  unfold scanEvent at h
  cases h0 : ev.bytes[0]? with
  | none => simp [h0] at h
  | some b0 =>
    simp only [h0] at h
    by_cases c9 : b0 &&& 0xf0 = 0x90
    · have hc : command ev = some 0x90 := by simp [command, h0, c9]
      cases h1 : ev.bytes[1]? with
      | none => simp [c9, h1] at h
      | some p =>
        cases h2 : ev.bytes[2]? with
        | none => simp [c9, h1, h2] at h
        | some v =>
          by_cases hv : v = 0
          · subst hv
            simp only [c9, h1, h2, if_true] at h
            rcases hoff p (Or.inr ⟨hc, h1, h2⟩) h with h3 | h3
            · exact Or.inl h3
            · exact Or.inr (Or.inr h3)
          · by_cases hp : p < state.length
            · simp [c9, h1, h2, hv, hp] at h
              exact Or.inr (Or.inl ⟨p, ⟨hc, h1, v, h2, by omega⟩, hp, h.symm⟩)
            · simp [c9, h1, h2, hv, hp] at h
    · by_cases c8 : b0 &&& 0xf0 = 0x80
      · have hc : command ev = some 0x80 := by simp [command, h0, c8]
        cases h1 : ev.bytes[1]? with
        | none => simp [c8, h1] at h
        | some p =>
          simp only [c8, h1] at h
          norm_num at h
          rcases hoff p (Or.inl ⟨hc, h1⟩) h with h3 | h3
          · exact Or.inl h3
          · exact Or.inr (Or.inr h3)
      · simp [c9, c8] at h
        exact Or.inl h.symm

theorem scanEvent_length {state : List Int} {melody : List Melody} {ev : MidiEvent}
    {r : List Int × List Melody} (h : scanEvent state melody ev = some r) :
    r.1.length = state.length := by
  rcases scanEvent_cases h with h1 | ⟨p, _, _, h1⟩ | ⟨p, s, _, _, _, h1⟩ <;> simp [h1]

theorem scanFrom_length (events : List MidiEvent) :
    ∀ {state : List Int} {melody : List Melody} {r : List Int × List Melody},
      scanFrom state melody events = some r → r.1.length = state.length := by
  induction events with
  | nil => intro state melody r h; simp [scanFrom] at h; simp [← h]
  | cons ev rest ih =>
    intro state melody r h
    simp only [scanFrom] at h
    cases h1 : scanEvent state melody ev with
    | none => simp [h1] at h
    | some r1 =>
      simp only [h1] at h
      rw [ih h, scanEvent_length h1]

theorem noteoff_defined {state : List Int} (melody : List Melody) {p : Nat} (tick : Int)
    (hp : p < state.length) : ∃ r, noteoff state melody p tick = some r := by
  unfold noteoff
  rw [List.getElem?_eq_getElem hp]
  by_cases hs : state[p] = -1 <;> simp [hs]

theorem scanEvent_defined {state : List Int} (melody : List Melody) {ev : MidiEvent}
    (hwf : WellFormedEvent ev) (hlen : state.length = 128) :
    ∃ r, scanEvent state melody ev = some r := by
  obtain ⟨⟨c, hc⟩, h9, h8⟩ := hwf
  unfold command at hc h9 h8
  unfold scanEvent
  cases h0 : ev.bytes[0]? with
  | none => simp [h0] at hc
  | some b0 =>
    simp only [h0, Option.map_some', Option.some.injEq] at hc h9 h8
    by_cases c9 : b0 &&& 0xf0 = 0x90
    · obtain ⟨⟨p, h1, hp⟩, v, h2⟩ := h9 c9
      have hp1 : p < state.length := by omega
      by_cases hv : v = 0
      · simpa [c9, h1, h2, hv] using noteoff_defined melody ev.tick hp1
      · simp [c9, h1, h2, hv, hp1]
    · by_cases c8 : b0 &&& 0xf0 = 0x80
      · obtain ⟨p, h1, hp⟩ := h8 c8
        have hp1 : p < state.length := by omega
        simpa [c8, h1] using noteoff_defined melody ev.tick hp1
      · simp [c9, c8]

theorem scanFrom_defined (events : List MidiEvent) :
    ∀ (state : List Int) (melody : List Melody), WellFormed events → state.length = 128 →
      ∃ r, scanFrom state melody events = some r := by
  induction events with
  | nil => intro state melody _ _; exact ⟨_, rfl⟩
  | cons ev rest ih =>
    intro state melody hwf hlen
    obtain ⟨r1, h1⟩ := scanEvent_defined melody (hwf ev (List.mem_cons_self _ _)) hlen
    have hlen1 : r1.1.length = 128 := by rw [scanEvent_length h1, hlen]
    obtain ⟨r, hr⟩ := ih r1.1 r1.2 (fun e he => hwf e (List.mem_cons_of_mem _ he)) hlen1
    exact ⟨r, by simp [scanFrom, h1, hr]⟩

theorem initState_length : initState.length = 128 := by
  simp [initState]

theorem initState_get {p : Nat} (hp : p < 128) : initState[p]? = some (-1) := by
  unfold initState
  rw [List.getElem?_replicate]
  simp [hp]

theorem scanEvent_untouched {state : List Int} {melody : List Melody} {ev : MidiEvent}
    {r : List Int × List Melody} {P : Nat} (hno : ¬ Touches ev P)
    (h : scanEvent state melody ev = some r) :
    r.1[P]? = state[P]? ∧ ∃ d, r.2 = melody ++ d ∧ ∀ x ∈ d, x.pitch ≠ (P : Int) := by
  rcases scanEvent_cases h with h1 | ⟨p, hon, _, h1⟩ | ⟨p, s, hoff, _, _, h1⟩
  · subst h1; exact ⟨rfl, [], by simp, by simp⟩
  · have hne : p ≠ P := by
      rintro rfl; exact hno ⟨Or.inl hon.1, hon.2.1⟩
    subst h1
    exact ⟨by simp [List.getElem?_set_ne hne], [], by simp, by simp⟩
  · have hne : p ≠ P := by
      rintro rfl
      rcases hoff with ⟨hc, h1⟩ | ⟨hc, h1, _⟩
      · exact hno ⟨Or.inr hc, h1⟩
      · exact hno ⟨Or.inl hc, h1⟩
    subst h1
    refine ⟨by simp [List.getElem?_set_ne hne], [_], rfl, ?_⟩
    intro x hx
    simp only [List.mem_singleton] at hx
    subst hx
    simpa using hne

theorem scanFrom_untouched (events : List MidiEvent) {P : Nat} :
    ∀ {state : List Int} {melody : List Melody} {r : List Int × List Melody},
      (∀ ev ∈ events, ¬ Touches ev P) → scanFrom state melody events = some r →
      r.1[P]? = state[P]? ∧ ∃ d, r.2 = melody ++ d ∧ ∀ x ∈ d, x.pitch ≠ (P : Int) := by
  induction events with
  | nil =>
    intro state melody r _ h
    simp only [scanFrom, Option.some.injEq] at h
    subst h
    exact ⟨rfl, [], by simp, by simp⟩
  | cons ev rest ih =>
    intro state melody r hno h
    simp only [scanFrom] at h
    cases h1 : scanEvent state melody ev with
    | none => simp [h1] at h
    | some r1 =>
      simp only [h1] at h
      obtain ⟨hs1, d1, hd1, hp1⟩ := scanEvent_untouched (hno ev (List.mem_cons_self _ _)) h1
      obtain ⟨hs2, d2, hd2, hp2⟩ := ih (fun e he => hno e (List.mem_cons_of_mem _ he)) h
      refine ⟨hs2.trans hs1, d1 ++ d2, by rw [hd2, hd1, List.append_assoc], ?_⟩
      intro x hx
      rcases List.mem_append.mp hx with hx | hx
      · exact hp1 x hx
      · exact hp2 x hx

theorem noteoff_active {state : List Int} (melody : List Melody) {p : Nat} {s : Int} (tick : Int)
    (hs : state[p]? = some s) (hne : s ≠ -1) :
    noteoff state melody p tick =
      some (state.set p (-1),
            melody ++ [{ tick := s, duration := tick - s, pitch := (p : Int) }]) := by
  simp [noteoff, hs, hne]

theorem noteoff_inactive {state : List Int} (melody : List Melody) {p : Nat} (tick : Int)
    (hs : state[p]? = some (-1)) :
    noteoff state melody p tick = some (state, melody) := by
  simp [noteoff, hs]

/-! ## Claims on convertToMelody -/

/-- C1 (round-trip pairing). In a well-formed stream with non-negative ticks, a
note-on for pitch `P` (at most 127) at tick `evOn.tick`, followed after events
`mid` that are neither note-on nor note-off for `P` by a note-off for `P` at tick
`evOff.tick`, makes the scan emit exactly one interval for the pair: the events up
to `mid` emit `A ++ M` with no interval of pitch `P` in `M`, the note-off adds
the single interval `(P, evOn.tick, evOff.tick - evOn.tick)`, and the result of the
whole stream continues from there. -/
theorem roundtrip_pairing (pre mid post : List MidiEvent) (evOn evOff : MidiEvent) (P : Nat)
    (hP : P ≤ 127)
    (hwf : WellFormed (pre ++ evOn :: mid ++ evOff :: post))
    (hticks : ∀ ev ∈ pre ++ evOn :: mid ++ evOff :: post, 0 ≤ ev.tick)
    (hon : IsNoteOn evOn P) (hoff : IsNoteOff evOff P)
    (hmid : ∀ ev ∈ mid, ¬ Touches ev P) :
    ∃ A M B, convertToMelody pre = some A ∧
      convertToMelody (pre ++ evOn :: mid) = some (A ++ M) ∧
      (∀ m ∈ M, m.pitch ≠ (P : Int)) ∧
      convertToMelody (pre ++ evOn :: mid ++ [evOff]) =
        some (A ++ M ++ [{ tick := evOn.tick, duration := evOff.tick - evOn.tick, pitch := (P : Int) }]) ∧
      convertToMelody (pre ++ evOn :: mid ++ evOff :: post) =
        some (A ++ M ++
          { tick := evOn.tick, duration := evOff.tick - evOn.tick, pitch := (P : Int) } :: B) := by
  have wpre : WellFormed pre := fun e he => hwf e (by simp [he])
  have wmid : WellFormed mid := fun e he => hwf e (by simp [he])
  have wpost : WellFormed post := fun e he => hwf e (by simp [he])
  have hT1 : 0 ≤ evOn.tick := hticks evOn (by simp)
  obtain ⟨⟨st0, A⟩, h0⟩ := scanFrom_defined pre initState [] wpre initState_length
  have l0 : st0.length = 128 := by rw [← initState_length]; exact scanFrom_length pre h0
  have h1 : scanEvent st0 A evOn = some (st0.set P evOn.tick, A) :=
    scanEvent_noteOn st0 A hon (by omega)
  obtain ⟨⟨st2, out2⟩, h2⟩ :=
    scanFrom_defined mid (st0.set P evOn.tick) A wmid (by simp [l0])
  obtain ⟨hs2, M, hM, hMp⟩ := scanFrom_untouched mid hmid h2
  simp only at hs2 hM
  subst hM
  have l2 : st2.length = 128 := by
    have := scanFrom_length mid h2
    simpa [l0] using this
  have hs2b : st2[P]? = some evOn.tick := by
    rw [hs2, List.getElem?_set_self (by omega)]
  have h3 : scanEvent st2 (A ++ M) evOff =
      some (st2.set P (-1),
        A ++ M ++ [{ tick := evOn.tick, duration := evOff.tick - evOn.tick, pitch := (P : Int) }]) := by
    rw [scanEvent_noteOff st2 (A ++ M) hoff]
    exact noteoff_active (A ++ M) evOff.tick hs2b (by omega)
  obtain ⟨⟨st4, B⟩, h4⟩ :=
    scanFrom_defined post (st2.set P (-1)) [] wpost (by simp [l2])
  have e1 : scanFrom initState [] (pre ++ evOn :: mid) = some (st2, A ++ M) := by
    rw [scanFrom_append, h0]
    simp [scanFrom, h1, h2]
  have e2 : scanFrom initState [] (pre ++ evOn :: mid ++ [evOff]) =
      some (st2.set P (-1),
        A ++ M ++ [{ tick := evOn.tick, duration := evOff.tick - evOn.tick, pitch := (P : Int) }]) := by
    rw [scanFrom_append, e1]
    simp [scanFrom, h3]
  refine ⟨A, M, B, by simp only [convertToMelody, h0, Option.map_some'],
    by simp only [convertToMelody, e1, Option.map_some'], hMp,
    by simp only [convertToMelody, e2, Option.map_some'], ?_⟩
  have e3 : pre ++ evOn :: mid ++ evOff :: post = (pre ++ evOn :: mid ++ [evOff]) ++ post := by simp
  rw [convertToMelody, e3, scanFrom_append, e2]
  simp only [Option.some_bind]
  rw [scanFrom_acc, h4]
  simp

theorem convertToMelody_nil : convertToMelody [] = some [] := rfl

set_option maxRecDepth 4000 in
/-- The stream `[on(60) at 0, off(60) at 10]` yields exactly `[(60, 0, 10)]`. -/
theorem roundtrip_pairing_witness :
    convertToMelody [⟨0, [0x90, 60, 100]⟩, ⟨10, [0x80, 60, 0]⟩] = some [⟨0, 10, 60⟩] := by
  have c9 : command ⟨0, [0x90, 60, 100]⟩ = some 0x90 := by decide
  have c8 : command ⟨10, [0x80, 60, 0]⟩ = some 0x80 := by decide
  obtain ⟨A, M, B, hA, hAM, -, h3, -⟩ :=
    roundtrip_pairing [] [] [] ⟨0, [0x90, 60, 100]⟩ ⟨10, [0x80, 60, 0]⟩ 60 (by decide)
      (by intro ev hev; simp at hev; rcases hev with rfl | rfl
          · exact ⟨⟨_, c9⟩, fun _ => ⟨⟨60, rfl, by decide⟩, 100, rfl⟩, fun h => by simp [c9] at h⟩
          · exact ⟨⟨_, c8⟩, fun h => by simp [c8] at h, fun _ => ⟨60, rfl, by decide⟩⟩)
      (by intro ev hev; simp at hev; rcases hev with rfl | rfl <;> simp)
      ⟨c9, rfl, 100, rfl, by decide⟩
      (Or.inl ⟨c8, rfl⟩)
      (by simp)
  rw [convertToMelody_nil] at hA
  have hA1 : A = [] := by simpa using hA.symm
  subst hA1
  have hM0 : convertToMelody [⟨0, [0x90, 60, 100]⟩] = some [] := by decide
  have hM1 : M = [] := by
    rw [List.nil_append, hM0] at hAM
    simpa using hAM.symm
  subst hM1
  simpa using h3

/-- C4 (overwrite policy). For a pitch `P` of at most 127 and ticks
`0 ≤ T1 ≤ T2 ≤ T3` (the absolute ticks of a MIDI file are not negative), the
stream `[note-on P at T1, note-on P at T2, note-off P at T3]` yields exactly one
interval, anchored at the second onset: `(P, T2, T3 - T2)`, of a duration that
is not negative; and in any 128-entry table a note-on with velocity above 0
replaces the stored onset by its tick and emits nothing. -/
theorem overwrite_policy (e1 e2 e3 : MidiEvent) (P : Nat) (hP : P ≤ 127)
    (h1 : IsNoteOn e1 P) (h2 : IsNoteOn e2 P) (h3 : IsNoteOff e3 P)
    (hT1 : 0 ≤ e1.tick) (h12 : e1.tick ≤ e2.tick) (h23 : e2.tick ≤ e3.tick) :
    convertToMelody [e1, e2, e3] =
      some [{ tick := e2.tick, duration := e3.tick - e2.tick, pitch := (P : Int) }] ∧
    0 ≤ e3.tick - e2.tick ∧
    ∀ (state : List Int) (melody : List Melody), state.length = 128 →
      scanEvent state melody e2 = some (state.set P e2.tick, melody) := by
  have hT : e2.tick ≠ -1 := by omega
  have hgen : ∀ (state : List Int) (melody : List Melody), state.length = 128 →
      scanEvent state melody e2 = some (state.set P e2.tick, melody) :=
    fun state melody hl => scanEvent_noteOn state melody h2 (by omega)
  refine ⟨?_, by omega, hgen⟩
  have s1 : scanEvent initState [] e1 = some (initState.set P e1.tick, []) :=
    scanEvent_noteOn initState [] h1 (by rw [initState_length]; omega)
  have s2 : scanEvent (initState.set P e1.tick) [] e2 =
      some ((initState.set P e1.tick).set P e2.tick, []) :=
    hgen _ _ (by simp [initState_length])
  have hget : ((initState.set P e1.tick).set P e2.tick)[P]? = some e2.tick :=
    List.getElem?_set_self (by simp [initState_length]; omega)
  have s3 : scanEvent ((initState.set P e1.tick).set P e2.tick) [] e3 =
      some (((initState.set P e1.tick).set P e2.tick).set P (-1),
        [] ++ [{ tick := e2.tick, duration := e3.tick - e2.tick, pitch := (P : Int) }]) := by
    rw [scanEvent_noteOff _ _ h3]
    exact noteoff_active [] e3.tick hget hT
  simp only [convertToMelody, scanFrom, s1, s2, s3, Option.map_some', List.nil_append]

set_option maxRecDepth 4000 in
/-- The stream `[on(60) at 0, on(60) at 4, off(60) at 10]` yields exactly `[(60, 4, 6)]`. -/
theorem overwrite_policy_witness :
    convertToMelody [⟨0, [0x90, 60, 100]⟩, ⟨4, [0x90, 60, 90]⟩, ⟨10, [0x80, 60, 0]⟩] =
      some [{ tick := 4, duration := 10 - 4, pitch := 60 }] :=
  (overwrite_policy ⟨0, [0x90, 60, 100]⟩ ⟨4, [0x90, 60, 90]⟩ ⟨10, [0x80, 60, 0]⟩ 60 (by decide)
    ⟨by decide, rfl, 100, rfl, by decide⟩ ⟨by decide, rfl, 90, rfl, by decide⟩
    (Or.inl ⟨by decide, rfl⟩) (by decide) (by decide) (by decide)).1

/-- C5 (unmatched note-off). When the scan has reached table `state` and output
`melody` after the events `pre`, a note-off for a pitch whose entry is -1 leaves
both unchanged and is no error; deleting it from the stream does not change the
result of `convertToMelody`. -/
theorem unmatched_noteoff_noop (pre post : List MidiEvent) (ev : MidiEvent) (P : Nat)
    (state : List Int) (melody : List Melody)
    (hpre : scanFrom initState [] pre = some (state, melody))
    (hoff : IsNoteOff ev P) (hin : state[P]? = some (-1)) :
    scanEvent state melody ev = some (state, melody) ∧
    convertToMelody (pre ++ ev :: post) = convertToMelody (pre ++ post) := by
  have hstep : scanEvent state melody ev = some (state, melody) := by
    rw [scanEvent_noteOff state melody hoff]
    exact noteoff_inactive melody ev.tick hin
  refine ⟨hstep, ?_⟩
  simp only [convertToMelody, scanFrom_append, hpre, Option.some_bind, scanFrom, hstep]

set_option maxRecDepth 4000 in
/-- The stream made of a single note-off yields the empty interval list. -/
theorem unmatched_noteoff_noop_witness :
    convertToMelody [⟨7, [0x80, 60, 0]⟩] = some [] := by
  have h := (unmatched_noteoff_noop [] [] ⟨7, [0x80, 60, 0]⟩ 60 initState [] rfl
    (Or.inl ⟨by decide, rfl⟩) (initState_get (by decide))).2
  simpa [convertToMelody_nil] using h

theorem scanEvent_alias {a b : MidiEvent} (h : Alias a b) (state : List Int)
    (melody : List Melody) : scanEvent state melody a = scanEvent state melody b := by
  obtain ⟨ha, hv, hb, hp, ht⟩ := h
  cases h1 : a.bytes[1]? with
  | none =>
    have h2 : a.bytes.length ≤ 1 := by
      by_contra hlen
      rw [List.getElem?_eq_getElem (by omega)] at h1
      exact Option.noConfusion h1
    rw [List.getElem?_eq_none (by omega)] at hv
    exact Option.noConfusion hv
  | some p =>
    rw [scanEvent_noteOff state melody (Or.inr ⟨ha, h1, hv⟩),
      scanEvent_noteOff state melody (Or.inl ⟨hb, hp.trans h1⟩), ht]

theorem scanFrom_alias {s1 s2 : List MidiEvent}
    (h : List.Forall₂ (fun a b => a = b ∨ Alias a b ∨ Alias b a) s1 s2) :
    ∀ (state : List Int) (melody : List Melody),
      scanFrom state melody s1 = scanFrom state melody s2 := by
  induction h with
  | nil => intro state melody; rfl
  | @cons a b l1 l2 hab _ ih =>
    intro state melody
    have hstep : scanEvent state melody a = scanEvent state melody b := by
      rcases hab with rfl | hab | hab
      · rfl
      · exact scanEvent_alias hab state melody
      · exact (scanEvent_alias hab state melody).symm
    simp only [scanFrom, hstep]
    cases scanEvent state melody b with
    | none => rfl
    | some r => exact ih r.1 r.2

/-- C9 (zero-velocity note-on is note-off). When stream `s2` is stream `s1` with
any of its events of status nibble 0x9 and velocity 0 replaced by events of
status nibble 0x8 with the same pitch byte and tick, or the other way round,
`convertToMelody` gives the same result on both. -/
theorem zero_velocity_alias (s1 s2 : List MidiEvent)
    (h : List.Forall₂ (fun a b => a = b ∨ Alias a b ∨ Alias b a) s1 s2) :
    convertToMelody s1 = convertToMelody s2 := by
  simp only [convertToMelody, scanFrom_alias h]

set_option maxRecDepth 4000 in
/-- Closing pitch 60 by `0x90 60 0` or by `0x80 60 64` gives the same interval. -/
theorem zero_velocity_alias_witness :
    convertToMelody [⟨0, [0x90, 60, 100]⟩, ⟨10, [0x90, 60, 0]⟩] =
      convertToMelody [⟨0, [0x90, 60, 100]⟩, ⟨10, [0x80, 60, 64]⟩] ∧
    convertToMelody [⟨0, [0x90, 60, 100]⟩, ⟨10, [0x80, 60, 64]⟩] = some [⟨0, 10, 60⟩] :=
  ⟨zero_velocity_alias _ _
    (List.Forall₂.cons (Or.inl rfl)
      (List.Forall₂.cons (Or.inr (Or.inl ⟨by decide, rfl, by decide, rfl, rfl⟩))
        List.Forall₂.nil)),
   by decide⟩

theorem closedBy_cons {state : List Int} {melody : List Melody} {ev : MidiEvent}
    {r1 : List Int × List Melody} {rest : List MidiEvent} {m : Melody}
    (h1 : scanEvent state melody ev = some r1) (h : ClosedBy r1.1 r1.2 rest m) :
    ClosedBy state melody (ev :: rest) m := by
  obtain ⟨pre, e, post, st, acc, st1, hsplit, hscan, hstep, hoff, hend⟩ := h
  exact ⟨ev :: pre, e, post, st, acc, st1, by rw [hsplit]; rfl,
    by simp only [scanFrom, h1, hscan], hstep, hoff, hend⟩

/-- Every entry of the table other than -1 is at most the tick of every event
still to come: the scan then emits only intervals of duration at least 0, each
ending at the tick of the note-off that pushes it. -/
theorem scanFrom_durations (events : List MidiEvent) :
    ∀ (state : List Int) (melody : List Melody) (r : List Int × List Melody),
      (∀ (i : Nat) (s : Int), state[i]? = some s → s ≠ -1 → ∀ ev ∈ events, s ≤ ev.tick) →
      events.Pairwise (fun a b => a.tick ≤ b.tick) →
      scanFrom state melody events = some r →
      ∃ d, r.2 = melody ++ d ∧
        ∀ m ∈ d, 0 ≤ m.duration ∧ ClosedBy state melody events m := by
  induction events with
  | nil =>
    intro state melody r _ _ h
    simp only [scanFrom, Option.some.injEq] at h
    subst h
    exact ⟨[], by simp, by simp⟩
  | cons ev rest ih =>
    intro state melody r hb hmono h
    simp only [scanFrom] at h
    obtain ⟨hhead, htail⟩ := List.pairwise_cons.mp hmono
    cases h1 : scanEvent state melody ev with
    | none => simp [h1] at h
    | some r1 =>
      simp only [h1] at h
      have hbrest : ∀ (i : Nat) (s : Int), state[i]? = some s → s ≠ -1 → ∀ e ∈ rest, s ≤ e.tick :=
        fun i s hs hne e he => hb i s hs hne e (List.mem_cons_of_mem _ he)
      rcases scanEvent_cases h1 with h2 | ⟨p, _, hp, h2⟩ | ⟨p, s0, hoff, hs0, hne0, h2⟩
      · obtain ⟨d, hd, hall⟩ := ih r1.1 r1.2 r (by rw [h2]; exact hbrest) htail h
        refine ⟨d, by rw [hd, h2], fun m hm => ⟨(hall m hm).1, closedBy_cons h1 (hall m hm).2⟩⟩
      · have hb1 : ∀ (i : Nat) (s : Int), r1.1[i]? = some s → s ≠ -1 → ∀ e ∈ rest, s ≤ e.tick := by
          intro i s hs hne e he
          rw [h2] at hs
          by_cases hip : p = i
          · subst hip
            rw [List.getElem?_set_self hp] at hs
            have : ev.tick = s := Option.some.inj hs
            rw [← this]
            exact hhead e he
          · rw [List.getElem?_set_ne hip] at hs
            exact hbrest i s hs hne e he
        obtain ⟨d, hd, hall⟩ := ih r1.1 r1.2 r hb1 htail h
        refine ⟨d, by rw [hd, h2], fun m hm => ⟨(hall m hm).1, closedBy_cons h1 (hall m hm).2⟩⟩
      · have hp : p < state.length := by
          by_contra hlen
          rw [List.getElem?_eq_none (by omega)] at hs0
          exact Option.noConfusion hs0
        have hb1 : ∀ (i : Nat) (s : Int), r1.1[i]? = some s → s ≠ -1 → ∀ e ∈ rest, s ≤ e.tick := by
          intro i s hs hne e he
          rw [h2] at hs
          by_cases hip : p = i
          · subst hip
            rw [List.getElem?_set_self hp] at hs
            exact absurd (Option.some.inj hs).symm hne
          · rw [List.getElem?_set_ne hip] at hs
            exact hbrest i s hs hne e he
        obtain ⟨d, hd, hall⟩ := ih r1.1 r1.2 r hb1 htail h
        refine ⟨{ tick := s0, duration := ev.tick - s0, pitch := (p : Int) } :: d,
          by rw [hd, h2]; simp, ?_⟩
        intro m hm
        rcases List.mem_cons.mp hm with hm | hm
        · subst hm
          have hle : s0 ≤ ev.tick := hb p s0 hs0 hne0 ev (List.mem_cons_self _ _)
          refine ⟨by simpa using hle, [], ev, rest, state, melody, r1.1, rfl, rfl, ?_,
            ⟨p, hoff, rfl⟩, by simp⟩
          rw [h1, h2]
        · exact ⟨(hall m hm).1, closedBy_cons h1 (hall m hm).2⟩

/-- C10 (non-negative durations). For a stream whose ticks never decrease from
one event to the next, every interval that `convertToMelody` emits has a duration
of at least 0 and is pushed by a note-off event for its pitch whose tick is the
onset plus the duration.  (Ticks below 0 need not be excluded for this.) -/
theorem nonneg_durations (events : List MidiEvent) (out : List Melody)
    (hmono : events.Chain' (fun a b => a.tick ≤ b.tick))
    (hout : convertToMelody events = some out) :
    ∀ m ∈ out, 0 ≤ m.duration ∧
      ∃ pre ev post A, events = pre ++ ev :: post ∧
        convertToMelody pre = some A ∧ convertToMelody (pre ++ [ev]) = some (A ++ [m]) ∧
        (∃ p, IsNoteOff ev p ∧ m.pitch = (p : Int)) ∧ m.tick + m.duration = ev.tick := by
  haveI : IsTrans MidiEvent (fun a b => a.tick ≤ b.tick) :=
    ⟨fun _ _ _ h1 h2 => le_trans h1 h2⟩
  have hpw : events.Pairwise (fun a b => a.tick ≤ b.tick) := List.chain'_iff_pairwise.mp hmono
  unfold convertToMelody at hout
  cases hscan : scanFrom initState [] events with
  | none => simp [hscan] at hout
  | some r =>
    simp only [hscan, Option.map_some', Option.some.injEq] at hout
    have hinit : ∀ (i : Nat) (s : Int), initState[i]? = some s → s ≠ -1 →
        ∀ ev ∈ events, s ≤ ev.tick := by
      intro i s hs hne
      unfold initState at hs
      rw [List.getElem?_replicate] at hs
      split_ifs at hs
      exact absurd (Option.some.inj hs).symm hne
    obtain ⟨d, hd, hall⟩ := scanFrom_durations events initState [] r hinit hpw hscan
    rw [List.nil_append] at hd
    intro m hm
    rw [← hout, hd] at hm
    obtain ⟨hdur, pre, ev, post, st, acc, st1, hsplit, hpre, hstep, hoff, hend⟩ := hall m hm
    refine ⟨hdur, pre, ev, post, acc, hsplit, ?_, ?_, hoff, hend⟩
    · simp only [convertToMelody, hpre, Option.map_some']
    · simp only [convertToMelody, scanFrom_append, hpre, Option.some_bind, scanFrom, hstep,
        Option.map_some']

/-- In the stream `[on(60) at 0, off(60) at 10]` the interval `(60, 0, 10)` has
duration 10 and is pushed by the note-off at tick 10. -/
theorem nonneg_durations_witness :
    0 ≤ (Melody.mk 0 10 60).duration ∧
      ∃ pre ev post A,
        [MidiEvent.mk 0 [0x90, 60, 100], MidiEvent.mk 10 [0x80, 60, 0]] = pre ++ ev :: post ∧
        convertToMelody pre = some A ∧
        convertToMelody (pre ++ [ev]) = some (A ++ [Melody.mk 0 10 60]) ∧
        (∃ p, IsNoteOff ev p ∧ (Melody.mk 0 10 60).pitch = (p : Int)) ∧
        (Melody.mk 0 10 60).tick + (Melody.mk 0 10 60).duration = ev.tick :=
  nonneg_durations [⟨0, [0x90, 60, 100]⟩, ⟨10, [0x80, 60, 0]⟩] [⟨0, 10, 60⟩]
    (by simp) (by set_option maxRecDepth 4000 in decide) ⟨0, 10, 60⟩ (by simp)

/-! ## Facts on the comparator and the print loop -/

theorem notecompare_le_iff (aa bb : Melody) :
    notecompare aa bb ≤ 0 ↔ aa.tick < bb.tick ∨ (aa.tick = bb.tick ∧ aa.pitch ≤ bb.pitch) := by
  unfold notecompare
  split_ifs <;> constructor <;> intro h <;> omega

theorem printLoop_cons_cons (tpq : Int) (a b : Melody) (rest : List Melody) :
    printLoop tpq (a :: b :: rest) =
      if b.tick - a.tick = 0 then printLoop tpq (b :: rest)
      else
        { time := (a.tick : ℚ) / (tpq : ℚ), pitch := a.pitch } ::
          ((if b.tick - a.tick > a.duration then
              [{ time := ((b.tick - (b.tick - a.tick - a.duration) : Int) : ℚ) / (tpq : ℚ),
                 pitch := 0 }]
            else []) ++ printLoop tpq (b :: rest)) := by
  simp only [printLoop]

theorem printLoop_append_cons (tpq : Int) (a : Melody) (ys : List Melody) :
    ∀ xs : List Melody,
      printLoop tpq (xs ++ a :: ys) = printLoop tpq (xs ++ [a]) ++ printLoop tpq (a :: ys) := by
  intro xs
  induction xs with
  | nil => simp [printLoop]
  | cons x xs ih =>
    cases xs with
    | nil =>
      simp only [List.cons_append, List.nil_append, printLoop_cons_cons]
      split_ifs <;> simp [printLoop]
    | cons y xs =>
      simp only [List.cons_append] at ih
      simp only [List.cons_append, printLoop_cons_cons tpq x y]
      split_ifs <;> simp [ih]

theorem printMelody_of_getLast {melody : List Melody} {last : Melody} (tpq : Int)
    (h : melody.getLast? = some last) :
    printMelody melody tpq =
      (printLoop tpq (melody ++ [sentinel last]) ++
         [{ time := ((sentinel last).tick : ℚ) / (tpq : ℚ), pitch := 0 }],
       melody ++ [sentinel last]) := by
  simp only [printMelody, h]

theorem printLoop_last_pair (tpq : Int) (last : Melody) (h : last.duration ≠ 0) :
    printLoop tpq [last, sentinel last] =
      [{ time := (last.tick : ℚ) / (tpq : ℚ), pitch := last.pitch }] := by
  simp [printLoop, sentinel, h]

theorem noteLE_total (aa bb : Melody) : noteLE aa bb ∨ noteLE bb aa := by
  unfold noteLE
  rw [notecompare_le_iff, notecompare_le_iff]
  omega

theorem noteLE_trans {aa bb cc : Melody} (h1 : noteLE aa bb) (h2 : noteLE bb cc) :
    noteLE aa cc := by
  unfold noteLE at *
  rw [notecompare_le_iff] at *
  omega

instance noteLE_isTotal : IsTotal Melody noteLE := ⟨noteLE_total⟩

instance noteLE_isTrans : IsTrans Melody noteLE := ⟨fun _ _ _ => noteLE_trans⟩

/-- The insertion sort `sortMelody` meets the contract of `qsort`. -/
theorem sortMelody_isQsortResult (melody : List Melody) :
    IsQsortResult notecompare melody (sortMelody melody) :=
  ⟨List.perm_insertionSort noteLE melody, List.sorted_insertionSort noteLE melody⟩

/-- Every line the loop prints comes from a pair of neighbours with different
ticks: it is the note segment of the first, or the silence behind it. -/
theorem mem_printLoop {tpq : Int} {seg : Segment} :
    ∀ {l : List Melody}, seg ∈ printLoop tpq l →
      ∃ xs a b ys, l = xs ++ a :: b :: ys ∧ b.tick ≠ a.tick ∧
        (seg = { time := (a.tick : ℚ) / (tpq : ℚ), pitch := a.pitch } ∨
         (b.tick - a.tick > a.duration ∧
          seg = { time := ((b.tick - (b.tick - a.tick - a.duration) : Int) : ℚ) / (tpq : ℚ),
                  pitch := 0 })) := by
  intro l
  induction l with
  | nil => intro h; simp [printLoop] at h
  | cons x tl ih =>
    cases tl with
    | nil => intro h; simp [printLoop] at h
    | cons y tl =>
      intro h
      rw [printLoop_cons_cons] at h
      have lift : seg ∈ printLoop tpq (y :: tl) →
          ∃ xs a b ys, x :: y :: tl = xs ++ a :: b :: ys ∧ b.tick ≠ a.tick ∧
            (seg = { time := (a.tick : ℚ) / (tpq : ℚ), pitch := a.pitch } ∨
             (b.tick - a.tick > a.duration ∧
              seg = { time := ((b.tick - (b.tick - a.tick - a.duration) : Int) : ℚ) / (tpq : ℚ),
                      pitch := 0 })) := by
        intro h1
        obtain ⟨xs, a, b, ys, e, hne, hseg⟩ := ih h1
        exact ⟨x :: xs, a, b, ys, by rw [e]; rfl, hne, hseg⟩
      by_cases hd : y.tick - x.tick = 0
      · rw [if_pos hd] at h
        exact lift h
      · rw [if_neg hd] at h
        have hne : y.tick ≠ x.tick := by omega
        rcases List.mem_cons.mp h with h | h
        · exact ⟨[], x, y, tl, rfl, hne, Or.inl h⟩
        · rcases List.mem_append.mp h with h | h
          · by_cases hg : y.tick - x.tick > x.duration
            · rw [if_pos hg] at h
              exact ⟨[], x, y, tl, rfl, hne, Or.inr ⟨hg, List.mem_singleton.mp h⟩⟩
            · rw [if_neg hg] at h
              simp at h
          · exact lift h

/-- The note segment of `a` is printed when its right neighbour `b` has another tick. -/
theorem note_mem_printLoop (tpq : Int) (xs ys : List Melody) (a b : Melody)
    (hne : b.tick ≠ a.tick) :
    ({ time := (a.tick : ℚ) / (tpq : ℚ), pitch := a.pitch } : Segment) ∈
      printLoop tpq (xs ++ a :: b :: ys) := by
  rw [printLoop_append_cons, printLoop_cons_cons, if_neg (by omega)]
  exact List.mem_append_right _ (List.mem_cons_self _ _)

/-- The last element of `s` with tick `t`. -/
theorem exists_last_with_tick (t : Int) :
    ∀ (s : List Melody) (x : Melody), x ∈ s → x.tick = t →
      ∃ xs a ys, s = xs ++ a :: ys ∧ a.tick = t ∧ ∀ y ∈ ys, y.tick ≠ t := by
  intro s
  induction s with
  | nil => intro x hx; simp at hx
  | cons h tl ih =>
    intro x hx hxt
    by_cases hex : ∃ y ∈ tl, y.tick = t
    · obtain ⟨y, hy, hyt⟩ := hex
      obtain ⟨xs, a, ys, e, hat, hys⟩ := ih y hy hyt
      exact ⟨h :: xs, a, ys, by rw [e]; rfl, hat, hys⟩
    · have hall : ∀ y ∈ tl, y.tick ≠ t := fun y hy hyt => hex ⟨y, hy, hyt⟩
      rcases List.mem_cons.mp hx with rfl | hx1
      · exact ⟨[], x, tl, rfl, hxt, hall⟩
      · exact absurd hxt (hall x hx1)

/-- Where an element `top` of the sorted vector stands with respect to a pair of
neighbours `a`, `b` of the vector with the sentinel behind it. -/
theorem position_in_sorted {s xs ys : List Melody} {a b sent top : Melody}
    (hsorted : s.Pairwise (fun x y => notecompare x y ≤ 0))
    (hsplit : s ++ [sent] = xs ++ a :: b :: ys) (htop : top ∈ s) :
    a ∈ s ∧
    ((top.tick ≤ a.tick ∧ (top.tick = a.tick → top.pitch ≤ a.pitch)) ∨
     (a.tick ≤ b.tick ∧ b.tick ≤ top.tick)) := by
  rcases List.eq_nil_or_concat ys with rfl | ⟨ys1, z, rfl⟩
  · have e : xs ++ [a, b] = (xs ++ [a]) ++ [b] := by simp
    rw [e] at hsplit
    obtain ⟨e1, -⟩ := List.append_inj' hsplit rfl
    subst e1
    refine ⟨by simp, Or.inl ?_⟩
    rcases List.mem_append.mp htop with h | h
    · have hle := (List.pairwise_append.mp hsorted).2.2 top h a (by simp)
      rw [notecompare_le_iff] at hle
      omega
    · simp only [List.mem_singleton] at h
      subst h
      exact ⟨le_refl _, fun _ => le_refl _⟩
  · have e : xs ++ a :: b :: ys1.concat z = (xs ++ a :: b :: ys1) ++ [z] := by simp
    rw [e] at hsplit
    obtain ⟨e1, -⟩ := List.append_inj' hsplit rfl
    subst e1
    refine ⟨by simp, ?_⟩
    obtain ⟨-, hright, hcross⟩ := List.pairwise_append.mp hsorted
    obtain ⟨ha, hrest⟩ := List.pairwise_cons.mp hright
    have hab := ha b (by simp)
    rw [notecompare_le_iff] at hab
    rcases List.mem_append.mp htop with h | h
    · have hle := hcross top h a (by simp)
      rw [notecompare_le_iff] at hle
      exact Or.inl (by omega)
    · rcases List.mem_cons.mp h with h | h
      · subst h
        exact Or.inl ⟨le_refl _, fun _ => le_refl _⟩
      · rcases List.mem_cons.mp h with h | h
        · subst h
          exact Or.inr ⟨by omega, le_refl _⟩
        · have hbt := (List.pairwise_cons.mp hrest).1 top h
          rw [notecompare_le_iff] at hbt
          exact Or.inr ⟨by omega, by omega⟩

/-! ## Claims on printMelody -/

/-- C3 (silence insertion). Let `a` and `b` be neighbours in the vector that
`printMelody` walks (the intervals with the sentinel behind them), `xs` the
elements before `a`.  When `b` starts at another tick than `a` and
`b.tick - a.tick` exceeds the duration of `a`, the output is: what the earlier
iterations print, the note segment of `a`, right behind it a silence segment at
`b.tick - (gap - a.duration)`, which is `a.tick + a.duration`, then what the
later iterations and the closing line print; every time is divided by `tpq`. -/
theorem silence_insertion (melody xs ys : List Melody) (a b : Melody) (tpq : Int)
    (hsplit : (printMelody melody tpq).2 = xs ++ a :: b :: ys)
    (htick : b.tick ≠ a.tick) (hgap : b.tick - a.tick > a.duration) :
    ∃ last, melody.getLast? = some last ∧
      (printMelody melody tpq).1 =
        printLoop tpq (xs ++ [a]) ++
          ({ time := (a.tick : ℚ) / (tpq : ℚ), pitch := a.pitch } ::
           { time := ((b.tick - (b.tick - a.tick - a.duration) : Int) : ℚ) / (tpq : ℚ),
             pitch := 0 } ::
           (printLoop tpq (b :: ys) ++
             [{ time := ((last.tick + last.duration : Int) : ℚ) / (tpq : ℚ), pitch := 0 }])) ∧
      b.tick - (b.tick - a.tick - a.duration) = a.tick + a.duration := by
  cases hl : melody.getLast? with
  | none =>
    rw [List.getLast?_eq_none_iff] at hl
    subst hl
    simp [printMelody] at hsplit
  | some last =>
    refine ⟨last, rfl, ?_, by omega⟩
    rw [printMelody_of_getLast tpq hl] at hsplit ⊢
    simp only at hsplit ⊢
    have h1 : ¬ (b.tick - a.tick = 0) := by omega
    rw [hsplit, printLoop_append_cons tpq a (b :: ys) xs, printLoop_cons_cons tpq a b ys,
      if_neg h1, if_pos hgap]
    simp [sentinel]

/-- The intervals `(60, 0, 10)`, `(62, 20, 5)` print `(0,60)`, `(10,0)`,
`(20,62)`, `(25,0)` (here with `tpq = 1`). -/
theorem silence_insertion_witness :
    (printMelody [⟨0, 10, 60⟩, ⟨20, 5, 62⟩] 1).1 = [⟨0, 60⟩, ⟨10, 0⟩, ⟨20, 62⟩, ⟨25, 0⟩] := by
  obtain ⟨last, hlast, hout, -⟩ :=
    silence_insertion [⟨0, 10, 60⟩, ⟨20, 5, 62⟩] [] [⟨25, 0, 0⟩] ⟨0, 10, 60⟩ ⟨20, 5, 62⟩ 1
      (by simp [printMelody, sentinel]) (by decide) (by decide)
  have hl : last = ⟨20, 5, 62⟩ := by simpa using hlast.symm
  subst hl
  rw [hout]
  simp [printLoop]

/-- C6 (empty input). On the empty collection `printMelody` prints nothing, no
closing line either, and leaves the collection empty. -/
theorem empty_input (tpq : Int) : printMelody [] tpq = ([], []) := by
  rfl

/-- C8 (the sentinel forces the final note) does not hold for a last interval
of duration 0, as a note-on and a note-off at one tick produce it: the sentinel
then has the tick of that interval, the loop skips the interval, and only the
closing line is printed. In front of a later note the same interval is printed:
the loop prints `(4, 60)` and a silence at 4 before the note at tick 9. -/
theorem sentinel_forces_final_fails :
    convertToMelody [⟨4, [0x90, 60, 100]⟩, ⟨4, [0x80, 60, 0]⟩] = some [⟨4, 0, 60⟩] ∧
    (printMelody [⟨4, 0, 60⟩] 1).2 = [⟨4, 0, 60⟩, ⟨4, 0, 0⟩] ∧
    (printMelody [⟨4, 0, 60⟩] 1).1 = [⟨4, 0⟩] ∧
    (⟨4, 60⟩ : Segment) ∉ (printMelody [⟨4, 0, 60⟩] 1).1 ∧
    (printMelody [⟨4, 0, 60⟩, ⟨9, 1, 62⟩] 1).1 = [⟨4, 60⟩, ⟨4, 0⟩, ⟨9, 62⟩, ⟨10, 0⟩] := by
  refine ⟨by set_option maxRecDepth 4000 in decide, ?_, ?_, ?_, ?_⟩ <;>
    simp [printMelody, printLoop, sentinel]

/-- What the sentinel does. For a non-empty list with
last interval `last`, `printMelody` pushes the sentinel
`(tick = last.tick + last.duration, pitch 0, duration 0)` and the output ends
with a pitch-0 segment at that tick; when `last.duration` is not 0, the output
is what the loop prints for the intervals before, then the note segment of
`last`, then that closing segment. -/
theorem sentinel_emits_final_note (melody : List Melody) (tpq : Int) (last : Melody)
    (hlast : melody.getLast? = some last) :
    (printMelody melody tpq).2 =
        melody ++ [{ tick := last.tick + last.duration, duration := 0, pitch := 0 }] ∧
    (printMelody melody tpq).1.getLast? =
        some { time := ((last.tick + last.duration : Int) : ℚ) / (tpq : ℚ), pitch := 0 } ∧
    (last.duration ≠ 0 →
      (printMelody melody tpq).1 =
        printLoop tpq melody ++
          [{ time := (last.tick : ℚ) / (tpq : ℚ), pitch := last.pitch },
           { time := ((last.tick + last.duration : Int) : ℚ) / (tpq : ℚ), pitch := 0 }]) := by
  rw [printMelody_of_getLast tpq hlast]
  refine ⟨rfl, by simp [sentinel], ?_⟩
  intro hd
  obtain ⟨init, rfl⟩ := List.getLast?_eq_some_iff.mp hlast
  have e : init ++ [last] ++ [sentinel last] = init ++ last :: [sentinel last] := by simp
  simp only
  rw [e, printLoop_append_cons tpq last [sentinel last] init, printLoop_last_pair tpq last hd]
  simp [sentinel]

/-- The list `(60, 0, 10)`, `(62, 20, 5)` ends with the note `(20, 62)` and the
closing silence `(25, 0)`. -/
theorem sentinel_emits_final_note_witness :
    (printMelody [⟨0, 10, 60⟩, ⟨20, 5, 62⟩] 1).2 = [⟨0, 10, 60⟩, ⟨20, 5, 62⟩, ⟨25, 0, 0⟩] ∧
    (printMelody [⟨0, 10, 60⟩, ⟨20, 5, 62⟩] 1).1 =
      printLoop 1 [⟨0, 10, 60⟩, ⟨20, 5, 62⟩] ++ [⟨20, 62⟩, ⟨25, 0⟩] := by
  obtain ⟨h1, -, h3⟩ :=
    sentinel_emits_final_note [⟨0, 10, 60⟩, ⟨20, 5, 62⟩] 1 ⟨20, 5, 62⟩ (by simp)
  refine ⟨by simpa using h1, ?_⟩
  rw [h3 (by decide)]
  norm_num

/-! ## Claims on sortMelody followed by printMelody -/

/-- C7 (sort order) does not hold in the code: for equal ticks and the higher
pitch in `a`, `notecompare a b` is 1, not negative, and the sort puts `a` behind
`b`, in ascending order of pitch. The comment at this branch of `notecompare`
says that the highest note comes first. -/
theorem sort_order_fails :
    ((Melody.mk 0 5 64).tick = (Melody.mk 0 5 60).tick ∧
      (Melody.mk 0 5 64).pitch > (Melody.mk 0 5 60).pitch) ∧
    notecompare ⟨0, 5, 64⟩ ⟨0, 5, 60⟩ = 1 ∧
    ¬ (notecompare ⟨0, 5, 64⟩ ⟨0, 5, 60⟩ < 0) ∧
    sortMelody [⟨0, 5, 64⟩, ⟨0, 5, 60⟩] = [⟨0, 5, 60⟩, ⟨0, 5, 64⟩] := by
  decide

/-- The order that the code gives. `sortMelody` is a result of `qsort` run with
`notecompare`, and every such result `s` is ordered by onset tick ascending and,
among equal onset ticks, by pitch ascending: for `a`, `b` with equal ticks and
`a.pitch > b.pitch`, `notecompare a b` is 1 and `b` stands before `a` in `s`. -/
theorem qsort_result_order (melody s : List Melody) (hs : IsQsortResult notecompare melody s) :
    IsQsortResult notecompare melody (sortMelody melody) ∧
    s.Pairwise (fun x y => x.tick < y.tick ∨ (x.tick = y.tick ∧ x.pitch ≤ y.pitch)) ∧
    (∀ a b : Melody, a.tick = b.tick → a.pitch > b.pitch → notecompare a b = 1) ∧
    (∀ (i j : Nat) (hi : i < s.length) (hj : j < s.length),
      s[i].tick = s[j].tick → s[i].pitch > s[j].pitch → j < i) := by
  refine ⟨sortMelody_isQsortResult melody, ?_, ?_, ?_⟩
  · exact hs.2.imp (fun h => (notecompare_le_iff _ _).mp h)
  · intro a b ht hp
    unfold notecompare
    rw [if_neg (by omega), if_neg (by omega), if_pos hp]
  · intro i j hi hj ht hp
    by_contra hji
    have hij : i < j := by
      rcases Nat.lt_or_ge i j with h | h
      · exact h
      · have e : i = j := by omega
        subst e
        omega
    have hle := List.pairwise_iff_getElem.mp hs.2 i j hi hj hij
    rw [notecompare_le_iff] at hle
    omega

/-- Two notes at tick 0: the one of pitch 60 is sorted before the one of pitch 64. -/
theorem qsort_result_order_witness :
    IsQsortResult notecompare [⟨0, 5, 64⟩, ⟨0, 5, 60⟩] [⟨0, 5, 60⟩, ⟨0, 5, 64⟩] ∧
    notecompare ⟨0, 5, 64⟩ ⟨0, 5, 60⟩ = 1 ∧
    ([⟨0, 5, 60⟩, ⟨0, 5, 64⟩] : List Melody).Pairwise
      (fun x y => x.tick < y.tick ∨ (x.tick = y.tick ∧ x.pitch ≤ y.pitch)) :=
  have hq : IsQsortResult notecompare [⟨0, 5, 64⟩, ⟨0, 5, 60⟩] [⟨0, 5, 60⟩, ⟨0, 5, 64⟩] :=
    ⟨List.Perm.swap _ _ _, by decide⟩
  have h := qsort_result_order [⟨0, 5, 64⟩, ⟨0, 5, 60⟩] [⟨0, 5, 60⟩, ⟨0, 5, 64⟩] hq
  ⟨hq, h.2.2.1 ⟨0, 5, 64⟩ ⟨0, 5, 60⟩ rfl (by decide), h.2.1⟩

/-- C2, as the claim states it, fails in two ways. Notes of duration 0 at the
shared tick that come last are all skipped, since the sentinel has their tick:
pitch 64 is not printed at tick 0. And a line of pitch 0 is also the mark of
silence: with pitches 0 and 64 at tick 0, pitch 64 of duration 0, the silence
behind pitch 64 is a line at tick 0 carrying the lower pitch 0. -/
theorem top_voice_wins_counterexample :
    (convertToMelody [⟨0, [0x90, 60, 100]⟩, ⟨0, [0x90, 64, 100]⟩, ⟨0, [0x80, 60, 0]⟩,
        ⟨0, [0x80, 64, 0]⟩] = some [⟨0, 0, 60⟩, ⟨0, 0, 64⟩] ∧
      sortMelody [⟨0, 0, 60⟩, ⟨0, 0, 64⟩] = [⟨0, 0, 60⟩, ⟨0, 0, 64⟩] ∧
      (printMelody (sortMelody [⟨0, 0, 60⟩, ⟨0, 0, 64⟩]) 1).1 = [⟨0, 0⟩] ∧
      (⟨0, 64⟩ : Segment) ∉ (printMelody (sortMelody [⟨0, 0, 60⟩, ⟨0, 0, 64⟩]) 1).1) ∧
    (sortMelody [⟨0, 0, 64⟩, ⟨10, 5, 70⟩, ⟨0, 5, 0⟩] = [⟨0, 5, 0⟩, ⟨0, 0, 64⟩, ⟨10, 5, 70⟩] ∧
      (printMelody (sortMelody [⟨0, 0, 64⟩, ⟨10, 5, 70⟩, ⟨0, 5, 0⟩]) 1).1 =
        [⟨0, 64⟩, ⟨0, 0⟩, ⟨10, 70⟩, ⟨15, 0⟩] ∧
      (⟨0, 0⟩ : Segment) ∈ (printMelody (sortMelody [⟨0, 0, 64⟩, ⟨10, 5, 70⟩, ⟨0, 5, 0⟩]) 1).1) := by
  have h1 : sortMelody [⟨0, 0, 60⟩, ⟨0, 0, 64⟩] = [⟨0, 0, 60⟩, ⟨0, 0, 64⟩] := by decide
  have h2 : sortMelody [⟨0, 0, 64⟩, ⟨10, 5, 70⟩, ⟨0, 5, 0⟩] =
      [⟨0, 5, 0⟩, ⟨0, 0, 64⟩, ⟨10, 5, 70⟩] := by decide
  rw [h1, h2]
  refine ⟨⟨by set_option maxRecDepth 4000 in decide, rfl, ?_, ?_⟩, rfl, ?_, ?_⟩ <;>
    simp [printMelody, printLoop, sentinel]

/-- C2 (top voice wins), amended. Let `s` be a result of sorting `melody` with
`notecompare`, `last` its last element, `t` an onset tick and `top` an interval
of `melody` with the highest pitch among those starting at `t`. Unless `last`
starts at `t` with duration 0, the printed line has a segment at `t / tpq`
carrying the pitch of `top`. When `tpq` is not 0, the line has no segment at
`t / tpq` carrying a lower pitch `q` of an interval starting at `t`, as long as
`q` is not 0 (the mark of silence) or every interval that ends at `t` started
before `t` or is one of the lower intervals starting at `t`. -/
theorem top_voice_wins (melody s : List Melody) (tpq t : Int) (top last : Melody)
    (hs : IsQsortResult notecompare melody s)
    (hlast : s.getLast? = some last)
    (htop : top ∈ melody) (ht : top.tick = t)
    (hmax : ∀ m ∈ melody, m.tick = t → m.pitch ≤ top.pitch) :
    ((last.tick ≠ t ∨ last.duration ≠ 0) →
      ({ time := (t : ℚ) / (tpq : ℚ), pitch := top.pitch } : Segment) ∈ (printMelody s tpq).1) ∧
    (tpq ≠ 0 → ∀ m ∈ melody, m.tick = t → m.pitch < top.pitch →
      (m.pitch ≠ 0 ∨
        ∀ x ∈ melody, x.tick + x.duration = t →
          x.tick < t ∨ (x.tick = t ∧ x.pitch < top.pitch)) →
      ({ time := (t : ℚ) / (tpq : ℚ), pitch := m.pitch } : Segment) ∉ (printMelody s tpq).1) := by
  obtain ⟨hperm, hsorted⟩ := hs
  have htop_s : top ∈ s := hperm.mem_iff.mpr htop
  have hmem : ∀ x, x ∈ s → x ∈ melody := fun x hx => hperm.mem_iff.mp hx
  have hl := hlast
  rw [printMelody_of_getLast tpq hl]
  simp only
  obtain ⟨init, hinit⟩ := List.getLast?_eq_some_iff.mp hl
  constructor
  · intro hdur
    obtain ⟨xs, a, ys, e, hat, hys⟩ := exists_last_with_tick t s top htop_s ht
    have ha_s : a ∈ s := by rw [e]; simp
    have hpitch : a.pitch = top.pitch := by
      have h1 : a.pitch ≤ top.pitch := hmax a (hmem a ha_s) hat
      have h2 : top.pitch ≤ a.pitch := by
        rw [e] at htop_s hsorted
        rcases List.mem_append.mp htop_s with h | h
        · have hle := (List.pairwise_append.mp hsorted).2.2 top h a (by simp)
          rw [notecompare_le_iff] at hle
          omega
        · rcases List.mem_cons.mp h with h | h
          · rw [h]
          · exact absurd ht (hys top h)
      omega
    apply List.mem_append_left
    rw [← hat, ← hpitch]
    cases ys with
    | nil =>
      have hlast1 : last = a := by
        rw [e] at hl
        simpa using hl.symm
      subst hlast1
      have e2 : s ++ [sentinel last] = xs ++ last :: sentinel last :: [] := by rw [e]; simp
      rw [e2]
      apply note_mem_printLoop
      simp only [sentinel]
      omega
    | cons b ys1 =>
      have e2 : s ++ [sentinel last] = xs ++ a :: b :: (ys1 ++ [sentinel last]) := by
        rw [e]; simp
      rw [e2]
      apply note_mem_printLoop
      have := hys b (by simp)
      omega
  · intro htpq m hm hmt hlow hcond hseg
    have hq : (tpq : ℚ) ≠ 0 := by exact_mod_cast htpq
    rcases List.mem_append.mp hseg with hseg | hseg
    · obtain ⟨xs, a, b, ys, hsplit, hne, hcase⟩ := mem_printLoop hseg
      obtain ⟨ha_s, hpos⟩ := position_in_sorted hsorted hsplit htop_s
      rcases hcase with hnote | ⟨hgap, hsil⟩
      · simp only [Segment.mk.injEq] at hnote
        obtain ⟨htime, hpq⟩ := hnote
        have hta : t = a.tick := by
          have := (div_left_inj' hq).mp htime
          exact_mod_cast this
        omega
      · simp only [Segment.mk.injEq] at hsil
        obtain ⟨htime, hpq⟩ := hsil
        have hta : t = b.tick - (b.tick - a.tick - a.duration) := by
          have := (div_left_inj' hq).mp htime
          exact_mod_cast this
        rcases hcond with h0 | hends
        · exact h0 hpq
        · have h1 := hends a (hmem a ha_s) (by omega)
          omega
    · simp only [List.mem_singleton, Segment.mk.injEq] at hseg
      obtain ⟨htime, hpq⟩ := hseg
      have hta : t = (sentinel last).tick := by
        have := (div_left_inj' hq).mp htime
        exact_mod_cast this
      simp only [sentinel] at hta
      rcases hcond with h0 | hends
      · exact h0 hpq
      · have hlast_s : last ∈ s := by rw [hinit]; simp
        have h1 := hends last (hmem last hlast_s) (by omega)
        have hle : top.tick ≤ last.tick ∧ (top.tick = last.tick → top.pitch ≤ last.pitch) := by
          rw [hinit] at htop_s hsorted
          rcases List.mem_append.mp htop_s with h | h
          · have hle := (List.pairwise_append.mp hsorted).2.2 top h last (by simp)
            rw [notecompare_le_iff] at hle
            omega
          · simp only [List.mem_singleton] at h
            rw [h]
            exact ⟨le_refl _, fun _ => le_refl _⟩
        omega

/-- Two intervals starting at tick 0 with pitches 60 and 64: the line has pitch
64 at tick 0 and never pitch 60 at tick 0. This also holds when both have
duration 0 and a later note follows. -/
theorem top_voice_wins_witness :
    ((⟨0, 64⟩ : Segment) ∈ (printMelody (sortMelody [⟨0, 10, 64⟩, ⟨0, 10, 60⟩]) 1).1 ∧
      (⟨0, 60⟩ : Segment) ∉ (printMelody (sortMelody [⟨0, 10, 64⟩, ⟨0, 10, 60⟩]) 1).1) ∧
    ((⟨0, 64⟩ : Segment) ∈
        (printMelody (sortMelody [⟨0, 0, 60⟩, ⟨0, 0, 64⟩, ⟨10, 5, 70⟩]) 1).1 ∧
      (⟨0, 60⟩ : Segment) ∉
        (printMelody (sortMelody [⟨0, 0, 60⟩, ⟨0, 0, 64⟩, ⟨10, 5, 70⟩]) 1).1) := by
  have h := top_voice_wins [⟨0, 10, 64⟩, ⟨0, 10, 60⟩] (sortMelody [⟨0, 10, 64⟩, ⟨0, 10, 60⟩])
    1 0 ⟨0, 10, 64⟩ ⟨0, 10, 64⟩ (sortMelody_isQsortResult _) (by decide) (by simp) rfl
    (by intro m hm _; simp at hm; rcases hm with rfl | rfl <;> decide)
  have g := top_voice_wins [⟨0, 0, 60⟩, ⟨0, 0, 64⟩, ⟨10, 5, 70⟩]
    (sortMelody [⟨0, 0, 60⟩, ⟨0, 0, 64⟩, ⟨10, 5, 70⟩])
    1 0 ⟨0, 0, 64⟩ ⟨10, 5, 70⟩ (sortMelody_isQsortResult _) (by decide) (by simp) rfl
    (by
      intro m hm hmt
      simp only [List.mem_cons, List.mem_singleton, List.not_mem_nil, or_false] at hm
      rcases hm with rfl | rfl | rfl
      · decide
      · decide
      · exact absurd hmt (by decide))
  refine ⟨⟨?_, ?_⟩, ?_, ?_⟩
  · have h1 := h.1 (Or.inr (by decide))
    simpa using h1
  · have h2 := h.2 (by decide) ⟨0, 10, 60⟩ (by simp) rfl (by decide) (Or.inl (by decide))
    simpa using h2
  · have g1 := g.1 (Or.inl (by decide))
    simpa using g1
  · have g2 := g.2 (by decide) ⟨0, 0, 60⟩ (by simp) rfl (by decide) (Or.inl (by decide))
    simpa using g2

/-! ## Further claims on printMelody -/

/-- C11 (no silence when notes touch or overlap). Let `a` and `b` be
neighbours in the vector that `printMelody` walks (the intervals with the
sentinel behind them), `xs` the elements before `a`.  When `b` starts at another
tick than `a` and `b.tick - a.tick` is at most the duration of `a`, the output
is: what the earlier iterations print, the note segment of `a`, and right behind
it what the later iterations and the closing line print; no silence line stands
between. -/
theorem no_silence_when_touching (melody xs ys : List Melody) (a b : Melody) (tpq : Int)
    (hsplit : (printMelody melody tpq).2 = xs ++ a :: b :: ys)
    (htick : b.tick ≠ a.tick) (hgap : b.tick - a.tick ≤ a.duration) :
    ∃ last, melody.getLast? = some last ∧
      (printMelody melody tpq).1 =
        printLoop tpq (xs ++ [a]) ++
          ({ time := (a.tick : ℚ) / (tpq : ℚ), pitch := a.pitch } ::
           (printLoop tpq (b :: ys) ++
             [{ time := ((last.tick + last.duration : Int) : ℚ) / (tpq : ℚ), pitch := 0 }])) := by
  cases hl : melody.getLast? with
  | none =>
    rw [List.getLast?_eq_none_iff] at hl
    subst hl
    simp [printMelody] at hsplit
  | some last =>
    refine ⟨last, rfl, ?_⟩
    rw [printMelody_of_getLast tpq hl] at hsplit ⊢
    simp only at hsplit ⊢
    have h1 : ¬ (b.tick - a.tick = 0) := by omega
    have h2 : ¬ (b.tick - a.tick > a.duration) := by omega
    rw [hsplit, printLoop_append_cons tpq a (b :: ys) xs, printLoop_cons_cons tpq a b ys,
      if_neg h1, if_neg h2]
    simp [sentinel]

/-- The intervals `(60, 0, 10)`, `(62, 10, 5)` touch: the lines are `(0,60)`,
`(10,62)`, `(15,0)`, with no silence between the two notes. -/
theorem no_silence_when_touching_witness :
    (printMelody [⟨0, 10, 60⟩, ⟨10, 5, 62⟩] 1).1 = [⟨0, 60⟩, ⟨10, 62⟩, ⟨15, 0⟩] := by
  obtain ⟨last, hlast, hout⟩ :=
    no_silence_when_touching [⟨0, 10, 60⟩, ⟨10, 5, 62⟩] [] [⟨15, 0, 0⟩] ⟨0, 10, 60⟩ ⟨10, 5, 62⟩ 1
      (by simp [printMelody, sentinel]) (by decide) (by decide)
  have hl : last = ⟨10, 5, 62⟩ := by simpa using hlast.symm
  subst hl
  rw [hout]
  simp [printLoop]

theorem div_tpq_mono {tpq m n : Int} (htpq : 0 < tpq) (h : m ≤ n) :
    (m : ℚ) / (tpq : ℚ) ≤ (n : ℚ) / (tpq : ℚ) := by
  have hq : (0 : ℚ) < (tpq : ℚ) := by exact_mod_cast htpq
  have hmn : (m : ℚ) ≤ (n : ℚ) := by exact_mod_cast h
  exact (div_le_div_iff_of_pos_right hq).mpr hmn

/-- Every line of the loop over a vector in tick order, durations at least 0,
has its time between the first and the last tick of the vector. -/
theorem printLoop_time_bounds {tpq : Int} {seg : Segment} {l : List Melody}
    (hsorted : l.Pairwise (fun x y => x.tick ≤ y.tick))
    (hdur : ∀ m ∈ l, 0 ≤ m.duration) (hseg : seg ∈ printLoop tpq l) :
    ∃ n : Int, seg.time = (n : ℚ) / (tpq : ℚ) ∧
      (∀ h tl, l = h :: tl → h.tick ≤ n) ∧ (∀ init z, l = init ++ [z] → n ≤ z.tick) := by
  obtain ⟨xs, a, b, ys, e, hne, hcase⟩ := mem_printLoop hseg
  subst e
  obtain ⟨-, hright, hcross⟩ := List.pairwise_append.mp hsorted
  obtain ⟨ha, hrest⟩ := List.pairwise_cons.mp hright
  have hab : a.tick ≤ b.tick := ha b (by simp)
  have hda : 0 ≤ a.duration := hdur a (by simp)
  have hhead : ∀ h tl, xs ++ a :: b :: ys = h :: tl → h.tick ≤ a.tick := by
    intro h tl e
    cases xs with
    | nil =>
      simp only [List.nil_append, List.cons.injEq] at e
      rw [← e.1]
    | cons x xs1 =>
      simp only [List.cons_append, List.cons.injEq] at e
      rw [← e.1]
      exact hcross x (by simp) a (by simp)
  have hlast : ∀ init z, xs ++ a :: b :: ys = init ++ [z] → b.tick ≤ z.tick := by
    intro init z e
    rcases List.eq_nil_or_concat ys with rfl | ⟨ys1, w, rfl⟩
    · have e1 : xs ++ [a, b] = (xs ++ [a]) ++ [b] := by simp
      rw [e1] at e
      obtain ⟨-, e2⟩ := List.append_inj' e rfl
      simp only [List.cons.injEq, and_true] at e2
      rw [e2]
    · have e1 : xs ++ a :: b :: ys1.concat w = (xs ++ a :: b :: ys1) ++ [w] := by simp
      rw [e1] at e
      obtain ⟨-, e2⟩ := List.append_inj' e rfl
      simp only [List.cons.injEq, and_true] at e2
      rw [← e2]
      exact (List.pairwise_cons.mp hrest).1 w (by simp)
  rcases hcase with hnote | ⟨hgap, hsil⟩
  · refine ⟨a.tick, by rw [hnote], ?_, ?_⟩
    · intro h tl e; exact hhead h tl e
    · intro init z e; have := hlast init z e; omega
  · refine ⟨b.tick - (b.tick - a.tick - a.duration), by rw [hsil], ?_, ?_⟩
    · intro h tl e; have := hhead h tl e; omega
    · intro init z e; have := hlast init z e; omega

/-- The loop prints its lines in the order of time when the vector is in tick
order and no duration is negative. -/
theorem printLoop_chronological (tpq : Int) (htpq : 0 < tpq) :
    ∀ l : List Melody, l.Pairwise (fun x y => x.tick ≤ y.tick) → (∀ m ∈ l, 0 ≤ m.duration) →
      (printLoop tpq l).Pairwise (fun x y => x.time ≤ y.time) := by
  intro l
  induction l with
  | nil => intro _ _; simp [printLoop]
  | cons a tl ih =>
    cases tl with
    | nil => intro _ _; simp [printLoop]
    | cons b rest =>
      intro hsorted hdur
      obtain ⟨ha, htail⟩ := List.pairwise_cons.mp hsorted
      have hdtail : ∀ m ∈ b :: rest, 0 ≤ m.duration :=
        fun m hm => hdur m (List.mem_cons_of_mem _ hm)
      have ih1 := ih htail hdtail
      have hab : a.tick ≤ b.tick := ha b (by simp)
      have hda : 0 ≤ a.duration := hdur a (by simp)
      have hlow : ∀ y ∈ printLoop tpq (b :: rest),
          ∃ n : Int, y.time = (n : ℚ) / (tpq : ℚ) ∧ b.tick ≤ n := by
        intro y hy
        obtain ⟨n, hn, hh, -⟩ := printLoop_time_bounds htail hdtail hy
        exact ⟨n, hn, hh b rest rfl⟩
      rw [printLoop_cons_cons]
      by_cases hd : b.tick - a.tick = 0
      · rw [if_pos hd]; exact ih1
      · rw [if_neg hd]
        by_cases hg : b.tick - a.tick > a.duration
        · rw [if_pos hg]
          refine List.pairwise_cons.mpr ⟨?_, List.pairwise_cons.mpr ⟨?_, ih1⟩⟩
          · intro y hy
            rcases List.mem_cons.mp hy with hy | hy
            · rw [hy]; exact div_tpq_mono htpq (by omega)
            · obtain ⟨n, hn, hbn⟩ := hlow y hy
              rw [hn]; exact div_tpq_mono htpq (by omega)
          · intro y hy
            obtain ⟨n, hn, hbn⟩ := hlow y hy
            rw [hn]; exact div_tpq_mono htpq (by omega)
        · rw [if_neg hg]
          refine List.pairwise_cons.mpr ⟨?_, ih1⟩
          intro y hy
          obtain ⟨n, hn, hbn⟩ := hlow y (by simpa using hy)
          rw [hn]; exact div_tpq_mono htpq (by omega)

/-- C12 (chronological output). For a collection with no negative duration,
any result `s` of sorting it with `notecompare` and `tpq` above 0, the lines that
`printMelody` prints for `s` (notes, silences and the closing line) have times
that never decrease: each line's time is at most the time of every later line. -/
theorem chronological_output (melody s : List Melody) (tpq : Int)
    (hs : IsQsortResult notecompare melody s)
    (hdur : ∀ m ∈ melody, 0 ≤ m.duration) (htpq : 0 < tpq) :
    (printMelody s tpq).1.Pairwise (fun x y => x.time ≤ y.time) := by
  obtain ⟨hperm, hsorted⟩ := hs
  have hmem : ∀ x, x ∈ s → x ∈ melody := fun x hx => hperm.mem_iff.mp hx
  cases hl : s.getLast? with
  | none =>
    rw [List.getLast?_eq_none_iff] at hl
    subst hl
    simp [printMelody]
  | some last =>
    rw [printMelody_of_getLast tpq hl]
    simp only
    obtain ⟨init, hinit⟩ := List.getLast?_eq_some_iff.mp hl
    have hticks : s.Pairwise (fun x y => x.tick ≤ y.tick) :=
      hsorted.imp (fun h => by rw [notecompare_le_iff] at h; omega)
    have hlast_mem : last ∈ s := by rw [hinit]; simp
    have hdl : 0 ≤ last.duration := hdur last (hmem last hlast_mem)
    have hle_last : ∀ x ∈ s, x.tick ≤ last.tick := by
      intro x hx
      rw [hinit] at hx hticks
      rcases List.mem_append.mp hx with h | h
      · exact (List.pairwise_append.mp hticks).2.2 x h last (by simp)
      · simp only [List.mem_singleton] at h
        rw [h]
    have hsorted1 : (s ++ [sentinel last]).Pairwise (fun x y => x.tick ≤ y.tick) := by
      refine List.pairwise_append.mpr ⟨hticks, by simp, ?_⟩
      intro x hx y hy
      simp only [List.mem_singleton] at hy
      subst hy
      have := hle_last x hx
      simp only [sentinel]
      omega
    have hdur1 : ∀ m ∈ s ++ [sentinel last], 0 ≤ m.duration := by
      intro m hm
      rcases List.mem_append.mp hm with h | h
      · exact hdur m (hmem m h)
      · simp only [List.mem_singleton] at h
        subst h
        simp [sentinel]
    refine List.pairwise_append.mpr
      ⟨printLoop_chronological tpq htpq _ hsorted1 hdur1, by simp, ?_⟩
    intro x hx y hy
    simp only [List.mem_singleton] at hy
    subst hy
    obtain ⟨n, hn, -, hup⟩ := printLoop_time_bounds hsorted1 hdur1 hx
    rw [hn]
    exact div_tpq_mono htpq (hup s (sentinel last) rfl)

/-- The notes `(62, 20, 5)` and `(60, 0, 10)`, sorted and printed with
`tpq = 2`, give the times 0, 5, 10, 25/2 in this order. -/
theorem chronological_output_witness :
    (printMelody (sortMelody [⟨20, 5, 62⟩, ⟨0, 10, 60⟩]) 2).1 =
      [⟨0, 60⟩, ⟨5, 0⟩, ⟨10, 62⟩, ⟨25 / 2, 0⟩] ∧
    (printMelody (sortMelody [⟨20, 5, 62⟩, ⟨0, 10, 60⟩]) 2).1.Pairwise
      (fun x y => x.time ≤ y.time) := by
  refine ⟨?_, chronological_output [⟨20, 5, 62⟩, ⟨0, 10, 60⟩]
    (sortMelody [⟨20, 5, 62⟩, ⟨0, 10, 60⟩]) 2 (sortMelody_isQsortResult _)
    (by intro m hm; simp at hm; rcases hm with rfl | rfl <;> decide) (by decide)⟩
  have h : sortMelody [⟨20, 5, 62⟩, ⟨0, 10, 60⟩] = [⟨0, 10, 60⟩, ⟨20, 5, 62⟩] := by decide
  rw [h]
  norm_num [printMelody, printLoop, sentinel]

/-! ## Further claims on convertToMelody -/

theorem scanEvent_noteOn_eq {ev : MidiEvent} {p : Nat} (state : List Int) (melody : List Melody)
    (h : IsNoteOn ev p) :
    scanEvent state melody ev =
      if p < state.length then some (state.set p ev.tick, melody) else none := by
  by_cases hp : p < state.length
  · rw [if_pos hp]; exact scanEvent_noteOn state melody h hp
  · rw [if_neg hp]
    obtain ⟨hc, h1, v, h2, hv⟩ := h
    unfold command at hc
    unfold scanEvent
    cases h0 : ev.bytes[0]? with
    | none => simp [h0] at hc
    | some b0 =>
      simp only [h0, Option.map_some', Option.some.injEq] at hc
      have hv0 : v ≠ 0 := by omega
      simp [hc, h1, h2, hv0, hp]

/-- The four kinds of events: the scan cannot read the message; the message is
ignored; it is a note-on; it is a note-off. -/
theorem scanEvent_shape (ev : MidiEvent) :
    (∀ (st : List Int) (m : List Melody), scanEvent st m ev = none) ∨
    (∀ (st : List Int) (m : List Melody), scanEvent st m ev = some (st, m)) ∨
    (∃ p, IsNoteOn ev p) ∨ (∃ p, IsNoteOff ev p) := by
  cases h0 : ev.bytes[0]? with
  | none => left; intro st m; simp [scanEvent, h0]
  | some b0 =>
    by_cases c9 : b0 &&& 0xf0 = 0x90
    · have hc : command ev = some 0x90 := by simp [command, h0, c9]
      cases h1 : ev.bytes[1]? with
      | none => left; intro st m; simp [scanEvent, h0, c9, h1]
      | some p =>
        cases h2 : ev.bytes[2]? with
        | none => left; intro st m; simp [scanEvent, h0, c9, h1, h2]
        | some v =>
          by_cases hv : v = 0
          · subst hv
            exact Or.inr (Or.inr (Or.inr ⟨p, Or.inr ⟨hc, h1, h2⟩⟩))
          · exact Or.inr (Or.inr (Or.inl ⟨p, hc, h1, v, h2, by omega⟩))
    · by_cases c8 : b0 &&& 0xf0 = 0x80
      · have hc : command ev = some 0x80 := by simp [command, h0, c8]
        cases h1 : ev.bytes[1]? with
        | none => left; intro st m; simp [scanEvent, h0, c8, h1]
        | some p => exact Or.inr (Or.inr (Or.inr ⟨p, Or.inl ⟨hc, h1⟩⟩))
      · right; left; intro st m; simp [scanEvent, h0, c9, c8]

theorem agreeOff_set {P : Nat} {st1 st2 : List Int} (h : AgreeOff P st1 st2) (p : Nat) (v : Int) :
    AgreeOff P (st1.set p v) (st2.set p v) := by
  refine ⟨by simp [h.1], ?_⟩
  intro i hi
  rw [List.getElem?_set, List.getElem?_set, h.1, h.2 i hi]

/-- One iteration on two tables that differ at most at `P`, for an event that
is no note-off for `P`: both fail, or both go on with the same output and with
tables that differ at most at `P`. -/
theorem scanEvent_agree {P : Nat} {st1 st2 : List Int} (h : AgreeOff P st1 st2)
    (m : List Melody) {ev : MidiEvent} (hno : ¬ IsNoteOff ev P) :
    (scanEvent st1 m ev = none ∧ scanEvent st2 m ev = none) ∨
    ∃ r1 r2, scanEvent st1 m ev = some r1 ∧ scanEvent st2 m ev = some r2 ∧
      r1.2 = r2.2 ∧ AgreeOff P r1.1 r2.1 := by
  rcases scanEvent_shape ev with hA | hB | ⟨p, hon⟩ | ⟨p, hoff⟩
  · exact Or.inl ⟨hA st1 m, hA st2 m⟩
  · exact Or.inr ⟨_, _, hB st1 m, hB st2 m, rfl, h⟩
  · by_cases hp : p < st2.length
    · have hp1 : p < st1.length := by rw [h.1]; exact hp
      exact Or.inr ⟨_, _, scanEvent_noteOn st1 m hon hp1, scanEvent_noteOn st2 m hon hp, rfl,
        agreeOff_set h p ev.tick⟩
    · have hp1 : ¬ p < st1.length := by rw [h.1]; exact hp
      refine Or.inl ⟨?_, ?_⟩
      · rw [scanEvent_noteOn_eq st1 m hon, if_neg hp1]
      · rw [scanEvent_noteOn_eq st2 m hon, if_neg hp]
  · have hne : p ≠ P := by
      rintro rfl; exact hno hoff
    rw [scanEvent_noteOff st1 m hoff, scanEvent_noteOff st2 m hoff]
    unfold noteoff
    rw [h.2 p hne]
    cases hs : st2[p]? with
    | none => exact Or.inl ⟨rfl, rfl⟩
    | some s =>
      by_cases hs1 : s = -1
      · simp only [hs1, if_true]
        exact Or.inr ⟨_, _, rfl, rfl, rfl, h⟩
      · simp only [hs1, if_false]
        exact Or.inr ⟨_, _, rfl, rfl, rfl, agreeOff_set h p (-1)⟩

theorem scanFrom_agree {P : Nat} (events : List MidiEvent) :
    ∀ (st1 st2 : List Int) (m : List Melody), AgreeOff P st1 st2 →
      (∀ ev ∈ events, ¬ IsNoteOff ev P) →
      (scanFrom st1 m events).map Prod.snd = (scanFrom st2 m events).map Prod.snd := by
  induction events with
  | nil => intro st1 st2 m _ _; simp [scanFrom]
  | cons ev rest ih =>
    intro st1 st2 m h hno
    simp only [scanFrom]
    rcases scanEvent_agree h m (hno ev (List.mem_cons_self _ _)) with
      ⟨h1, h2⟩ | ⟨r1, r2, h1, h2, hm, hr⟩
    · rw [h1, h2]
    · rw [h1, h2]
      simp only
      rw [hm]
      exact ih r1.1 r2.1 r2.2 hr (fun e he => hno e (List.mem_cons_of_mem _ he))

theorem scanFrom_noteOns (stream : List MidiEvent) :
    ∀ (st : List Int) (m : List Melody), st.length = 128 →
      (∀ e ∈ stream, ∃ P, P ≤ 127 ∧ IsNoteOn e P) →
      ∃ st1, scanFrom st m stream = some (st1, m) := by
  induction stream with
  | nil => intro st m _ _; exact ⟨st, rfl⟩
  | cons ev rest ih =>
    intro st m hlen hall
    obtain ⟨P, hP, hon⟩ := hall ev (List.mem_cons_self _ _)
    have h1 := scanEvent_noteOn st m hon (by omega)
    obtain ⟨st1, h2⟩ := ih (st.set P ev.tick) m (by simp [hlen])
      (fun e he => hall e (List.mem_cons_of_mem _ he))
    exact ⟨st1, by simp only [scanFrom, h1, h2]⟩

/-- C13 (an unterminated note-on is dropped). A note-on (velocity above 0) for a
pitch `P` of at most 127 that no later note-off for `P` follows contributes no
interval: the stream gives the same result with and without it. So a note-on put
behind the end of any stream leaves the result unchanged, and a stream of
note-ons alone yields the empty list. -/
theorem unterminated_noteon_dropped :
    (∀ (pre post : List MidiEvent) (ev : MidiEvent) (P : Nat), P ≤ 127 → IsNoteOn ev P →
      (∀ e ∈ post, ¬ IsNoteOff e P) →
      convertToMelody (pre ++ ev :: post) = convertToMelody (pre ++ post)) ∧
    (∀ (stream : List MidiEvent) (ev : MidiEvent) (P : Nat), P ≤ 127 → IsNoteOn ev P →
      convertToMelody (stream ++ [ev]) = convertToMelody stream) ∧
    (∀ stream : List MidiEvent, (∀ e ∈ stream, ∃ P, P ≤ 127 ∧ IsNoteOn e P) →
      convertToMelody stream = some []) := by
  have part1 : ∀ (pre post : List MidiEvent) (ev : MidiEvent) (P : Nat), P ≤ 127 →
      IsNoteOn ev P → (∀ e ∈ post, ¬ IsNoteOff e P) →
      convertToMelody (pre ++ ev :: post) = convertToMelody (pre ++ post) := by
    intro pre post ev P hP hon hpost
    simp only [convertToMelody, scanFrom_append]
    cases hpre : scanFrom initState [] pre with
    | none => rfl
    | some r =>
      have hlen : r.1.length = 128 := by
        rw [scanFrom_length pre hpre, initState_length]
      have h1 := scanEvent_noteOn r.1 r.2 hon (by omega)
      simp only [Option.some_bind, scanFrom, h1]
      apply scanFrom_agree post
      · refine ⟨by simp, ?_⟩
        intro i hi
        exact List.getElem?_set_ne (Ne.symm hi)
      · exact hpost
  refine ⟨part1, ?_, ?_⟩
  · intro stream ev P hP hon
    have h := part1 stream [] ev P hP hon (by simp)
    simpa using h
  · intro stream hall
    obtain ⟨st1, h⟩ := scanFrom_noteOns stream initState [] initState_length hall
    simp only [convertToMelody, h, Option.map_some']

set_option maxRecDepth 4000 in
/-- A note-on for pitch 64 behind a closed note of pitch 60 adds nothing, and
two note-ons alone yield the empty list. -/
theorem unterminated_noteon_dropped_witness :
    convertToMelody [⟨0, [0x90, 60, 100]⟩, ⟨10, [0x80, 60, 0]⟩, ⟨12, [0x90, 64, 90]⟩] =
      some [⟨0, 10, 60⟩] ∧
    convertToMelody [⟨0, [0x90, 60, 100]⟩, ⟨3, [0x91, 64, 90]⟩] = some [] := by
  have c9 : command ⟨12, [0x90, 64, 90]⟩ = some 0x90 := by decide
  constructor
  · have h := unterminated_noteon_dropped.2.1
      [⟨0, [0x90, 60, 100]⟩, ⟨10, [0x80, 60, 0]⟩] ⟨12, [0x90, 64, 90]⟩ 64 (by decide)
      ⟨c9, rfl, 90, rfl, by decide⟩
    have h0 : convertToMelody [⟨0, [0x90, 60, 100]⟩, ⟨10, [0x80, 60, 0]⟩] =
        some [⟨0, 10, 60⟩] := by decide
    rw [h0] at h
    simpa using h
  · apply unterminated_noteon_dropped.2.2
    intro e he
    simp only [List.mem_cons, List.mem_singleton, List.not_mem_nil, or_false] at he
    rcases he with rfl | rfl
    · exact ⟨60, by decide, by decide, rfl, 100, rfl, by decide⟩
    · exact ⟨64, by decide, by decide, rfl, 90, rfl, by decide⟩

theorem scanEvent_ignored {ev : MidiEvent} {c : Nat} (hc : command ev = some c)
    (h9 : c ≠ 0x90) (h8 : c ≠ 0x80) (state : List Int) (melody : List Melody) :
    scanEvent state melody ev = some (state, melody) := by
  unfold command at hc
  unfold scanEvent
  cases h0 : ev.bytes[0]? with
  | none => simp [h0] at hc
  | some b0 =>
    simp only [h0, Option.map_some', Option.some.injEq] at hc
    simp [hc, h9, h8]

theorem scanEvent_sameUpToChannel {a b : MidiEvent} (h : SameUpToChannel a b)
    (state : List Int) (melody : List Melody) :
    scanEvent state melody a = scanEvent state melody b := by
  obtain ⟨ht, s1, s2, data, ha, hb, hs⟩ := h
  unfold scanEvent
  rw [ha, hb, ht]
  simp only [List.getElem?_cons_zero, List.getElem?_cons_succ, hs]

theorem scanFrom_sameUpToChannel {s1 s2 : List MidiEvent}
    (h : List.Forall₂ (fun a b => a = b ∨ SameUpToChannel a b) s1 s2) :
    ∀ (state : List Int) (melody : List Melody),
      scanFrom state melody s1 = scanFrom state melody s2 := by
  induction h with
  | nil => intro state melody; rfl
  | @cons a b l1 l2 hab _ ih =>
    intro state melody
    have hstep : scanEvent state melody a = scanEvent state melody b := by
      rcases hab with rfl | hab
      · rfl
      · exact scanEvent_sameUpToChannel hab state melody
    simp only [scanFrom, hstep]
    cases scanEvent state melody b with
    | none => rfl
    | some r => exact ih r.1 r.2

/-- C14 (other events are ignored). An event whose status byte has a high nibble
other than 0x9 and 0x8 can be put into a stream or taken out of it at any place
without changing the result of `convertToMelody`. Streams that agree event by
event up to the low (channel) nibble of the status bytes give the same result;
the status bytes `0x90 + ch` and `0x80 + ch`, `ch` below 16, are those of
note-on and note-off on channel `ch`. -/
theorem other_events_ignored :
    (∀ (pre post : List MidiEvent) (ev : MidiEvent) (c : Nat),
      command ev = some c → c ≠ 0x90 → c ≠ 0x80 →
      convertToMelody (pre ++ ev :: post) = convertToMelody (pre ++ post)) ∧
    (∀ s1 s2 : List MidiEvent,
      List.Forall₂ (fun a b => a = b ∨ SameUpToChannel a b) s1 s2 →
      convertToMelody s1 = convertToMelody s2) ∧
    (∀ ch : Nat, ch < 16 → (0x90 + ch) &&& 0xf0 = 0x90 ∧ (0x80 + ch) &&& 0xf0 = 0x80) := by
  refine ⟨?_, ?_, by decide⟩
  · intro pre post ev c hc h9 h8
    simp only [convertToMelody, scanFrom_append]
    cases hpre : scanFrom initState [] pre with
    | none => rfl
    | some r => simp only [Option.some_bind, scanFrom, scanEvent_ignored hc h9 h8]
  · intro s1 s2 h
    simp only [convertToMelody, scanFrom_sameUpToChannel h]

set_option maxRecDepth 4000 in
/-- A controller message between note-on and note-off changes nothing, and
neither does playing the note on channel 3. -/
theorem other_events_ignored_witness :
    convertToMelody [⟨0, [0x90, 60, 100]⟩, ⟨5, [0xb0, 7, 127]⟩, ⟨10, [0x80, 60, 0]⟩] =
      some [⟨0, 10, 60⟩] ∧
    convertToMelody [⟨0, [0x93, 60, 100]⟩, ⟨10, [0x83, 60, 0]⟩] = some [⟨0, 10, 60⟩] := by
  have h0 : convertToMelody [⟨0, [0x90, 60, 100]⟩, ⟨10, [0x80, 60, 0]⟩] =
      some [⟨0, 10, 60⟩] := by decide
  constructor
  · have h := other_events_ignored.1 [⟨0, [0x90, 60, 100]⟩] [⟨10, [0x80, 60, 0]⟩]
      ⟨5, [0xb0, 7, 127]⟩ 0xb0 (by decide) (by decide) (by decide)
    rw [← h0]
    simpa using h
  · rw [← h0]
    apply other_events_ignored.2.1
    refine List.Forall₂.cons (Or.inr ⟨rfl, 0x93, 0x90, [60, 100], rfl, rfl, by decide⟩)
      (List.Forall₂.cons (Or.inr ⟨rfl, 0x83, 0x80, [60, 0], rfl, rfl, by decide⟩)
        List.Forall₂.nil)

/-- The invariant behind C18: every interval in the output ends at or before
the tick of each event still to come, and at or before the pending onset of its
own pitch; then the output stays in time order pitch by pitch. -/
theorem scanFrom_disjoint (events : List MidiEvent) :
    ∀ (state : List Int) (melody : List Melody) (r : List Int × List Melody),
      events.Pairwise (fun a b => a.tick ≤ b.tick) →
      (∀ m ∈ melody, ∀ e ∈ events, m.tick + m.duration ≤ e.tick) →
      (∀ (p : Nat) (s : Int), state[p]? = some s → s ≠ -1 →
        ∀ m ∈ melody, m.pitch = (p : Int) → m.tick + m.duration ≤ s) →
      melody.Pairwise (fun a b => a.pitch = b.pitch → a.tick + a.duration ≤ b.tick) →
      scanFrom state melody events = some r →
      r.2.Pairwise (fun a b => a.pitch = b.pitch → a.tick + a.duration ≤ b.tick) := by
  induction events with
  | nil =>
    intro state melody r _ _ _ hpw h
    simp only [scanFrom, Option.some.injEq] at h
    subst h
    exact hpw
  | cons ev rest ih =>
    intro state melody r hmono hend hpend hpw h
    simp only [scanFrom] at h
    obtain ⟨hhead, htail⟩ := List.pairwise_cons.mp hmono
    cases h1 : scanEvent state melody ev with
    | none => simp [h1] at h
    | some r1 =>
      simp only [h1] at h
      have hend_rest : ∀ m ∈ melody, ∀ e ∈ rest, m.tick + m.duration ≤ e.tick :=
        fun m hm e he => hend m hm e (List.mem_cons_of_mem _ he)
      rcases scanEvent_cases h1 with h2 | ⟨p, _, hp, h2⟩ | ⟨p, s0, _, hs0, hne0, h2⟩
      · subst h2
        exact ih state melody r htail hend_rest hpend hpw h
      · subst h2
        refine ih _ melody r htail hend_rest ?_ hpw h
        intro q s hs hne m hm hmq
        by_cases hpq : p = q
        · subst hpq
          rw [List.getElem?_set_self hp] at hs
          have : ev.tick = s := Option.some.inj hs
          rw [← this]
          exact hend m hm ev (List.mem_cons_self _ _)
        · rw [List.getElem?_set_ne hpq] at hs
          exact hpend q s hs hne m hm hmq
      · subst h2
        have hp : p < state.length := by
          by_contra hlen
          rw [List.getElem?_eq_none (by omega)] at hs0
          exact Option.noConfusion hs0
        refine ih _ _ r htail ?_ ?_ ?_ h
        · intro m hm e he
          rcases List.mem_append.mp hm with hm | hm
          · exact hend_rest m hm e he
          · simp only [List.mem_singleton] at hm
            subst hm
            have := hhead e he
            simp only
            omega
        · intro q s hs hne m hm hmq
          by_cases hpq : p = q
          · subst hpq
            rw [List.getElem?_set_self hp] at hs
            exact absurd (Option.some.inj hs).symm hne
          · rw [List.getElem?_set_ne hpq] at hs
            rcases List.mem_append.mp hm with hm | hm
            · exact hpend q s hs hne m hm hmq
            · simp only [List.mem_singleton] at hm
              subst hm
              simp only at hmq
              exact absurd (by exact_mod_cast hmq) hpq
        · refine List.pairwise_append.mpr ⟨hpw, by simp, ?_⟩
          intro a ha b hb hab
          simp only [List.mem_singleton] at hb
          subst hb
          simp only at hab ⊢
          exact hpend p s0 hs0 hne0 a ha hab

/-- C18 (intervals of one pitch never overlap). For a stream whose ticks never
decrease from one event to the next, two intervals of the same pitch in the
output of `convertToMelody` are in time order: the one emitted first ends at or
before the onset of the one emitted later.  (Ticks below 0 need not be excluded
for this.) -/
theorem per_pitch_disjoint (events : List MidiEvent) (out : List Melody)
    (hmono : events.Chain' (fun a b => a.tick ≤ b.tick))
    (hout : convertToMelody events = some out) :
    out.Pairwise (fun a b => a.pitch = b.pitch → a.tick + a.duration ≤ b.tick) := by
  haveI : IsTrans MidiEvent (fun a b => a.tick ≤ b.tick) :=
    ⟨fun _ _ _ h1 h2 => le_trans h1 h2⟩
  have hpw : events.Pairwise (fun a b => a.tick ≤ b.tick) := List.chain'_iff_pairwise.mp hmono
  unfold convertToMelody at hout
  cases hscan : scanFrom initState [] events with
  | none => simp [hscan] at hout
  | some r =>
    simp only [hscan, Option.map_some', Option.some.injEq] at hout
    rw [← hout]
    exact scanFrom_disjoint events initState [] r hpw (by simp) (by simp) (by simp) hscan

set_option maxRecDepth 4000 in
/-- Pitch 60 played twice: the first interval ends at tick 10, the second
starts at tick 10. -/
theorem per_pitch_disjoint_witness :
    convertToMelody [⟨0, [0x90, 60, 100]⟩, ⟨10, [0x80, 60, 0]⟩, ⟨10, [0x90, 60, 100]⟩,
        ⟨15, [0x90, 60, 0]⟩] = some [⟨0, 10, 60⟩, ⟨10, 5, 60⟩] ∧
    ([⟨0, 10, 60⟩, ⟨10, 5, 60⟩] : List Melody).Pairwise
      (fun a b => a.pitch = b.pitch → a.tick + a.duration ≤ b.tick) :=
  ⟨by decide,
   per_pitch_disjoint [⟨0, [0x90, 60, 100]⟩, ⟨10, [0x80, 60, 0]⟩, ⟨10, [0x90, 60, 100]⟩,
     ⟨15, [0x90, 60, 0]⟩] [⟨0, 10, 60⟩, ⟨10, 5, 60⟩] (by simp) (by decide)⟩

theorem wellFormedEvent_of_noteBytesInRange {ev : MidiEvent} (h : NoteBytesInRange ev) :
    WellFormedEvent ev := by
  obtain ⟨hc, hn⟩ := h
  refine ⟨hc, ?_, ?_⟩
  · intro h9
    obtain ⟨hlen, p, hp, hp127⟩ := hn (Or.inl h9)
    exact ⟨⟨p, hp, by omega⟩, ev.bytes[2], List.getElem?_eq_getElem (by omega)⟩
  · intro h8
    obtain ⟨-, p, hp, hp127⟩ := hn (Or.inr h8)
    exact ⟨p, hp, by omega⟩

theorem tableIndex_pitch {ev : MidiEvent} {p : Nat} (h : tableIndex ev = some p) :
    (command ev = some 0x90 ∨ command ev = some 0x80) ∧ ev.bytes[1]? = some p := by
  unfold tableIndex at h
  cases h0 : ev.bytes[0]? with
  | none => simp [h0] at h
  | some b0 =>
    simp only [h0] at h
    by_cases c9 : b0 &&& 0xf0 = 0x90
    · have hc : command ev = some 0x90 := by simp [command, h0, c9]
      cases h1 : ev.bytes[1]? with
      | none => simp [c9, h1] at h
      | some q =>
        cases h2 : ev.bytes[2]? with
        | none => simp [c9, h1, h2] at h
        | some v =>
          simp [c9, h1, h2] at h
          exact ⟨Or.inl hc, by rw [h]⟩
    · by_cases c8 : b0 &&& 0xf0 = 0x80
      · have hc : command ev = some 0x80 := by simp [command, h0, c8]
        simp [c9, c8] at h
        exact ⟨Or.inr hc, h⟩
      · simp [c9, c8] at h

/-- An index outside the table sends the iteration into the out-of-range branch. -/
theorem scanEvent_index_out_of_range {ev : MidiEvent} {p : Nat} (state : List Int)
    (melody : List Melody) (h : tableIndex ev = some p) (hp : state.length ≤ p) :
    scanEvent state melody ev = none := by
  unfold tableIndex at h
  unfold scanEvent
  cases h0 : ev.bytes[0]? with
  | none => rfl
  | some b0 =>
    simp only [h0] at h ⊢
    have hget : state[p]? = none := List.getElem?_eq_none hp
    by_cases c9 : b0 &&& 0xf0 = 0x90
    · cases h1 : ev.bytes[1]? with
      | none => simp [c9, h1] at h
      | some q =>
        cases h2 : ev.bytes[2]? with
        | none => simp [c9, h1, h2] at h
        | some v =>
          simp [c9, h1, h2] at h
          subst h
          by_cases hv : v = 0
          · simp [c9, hv, noteoff, hget]
          · simp [c9, hv, Nat.not_lt.mpr hp]
    · by_cases c8 : b0 &&& 0xf0 = 0x80
      · simp [c9, c8] at h
        simp [c9, c8, h, noteoff, hget]
      · simp [c9, c8] at h

/-- C20 (table accesses are in bounds). When every event of the stream has its
status byte and every note-on and note-off message carries at least two data
bytes with the pitch byte in `[0, 127]`, then every index with which the scan
accesses the 128-entry table is at most 127, every iteration goes on with a
table of 128 entries, and `convertToMelody` returns an interval list: the scan
is total. -/
theorem table_access_in_bounds (events : List MidiEvent)
    (h : ∀ ev ∈ events, NoteBytesInRange ev) :
    (∀ ev ∈ events, ∀ p, tableIndex ev = some p → p ≤ 127) ∧
    (∀ ev ∈ events, ∀ (state : List Int) (melody : List Melody), state.length = 128 →
      ∃ r, scanEvent state melody ev = some r ∧ r.1.length = 128) ∧
    (∃ out, convertToMelody events = some out) := by
  have hwf : WellFormed events := fun ev hev => wellFormedEvent_of_noteBytesInRange (h ev hev)
  refine ⟨?_, ?_, ?_⟩
  · intro ev hev p hp
    obtain ⟨hc, h1⟩ := tableIndex_pitch hp
    obtain ⟨-, q, hq, hq127⟩ := (h ev hev).2 hc
    rw [h1] at hq
    have : p = q := Option.some.inj hq
    omega
  · intro ev hev state melody hlen
    obtain ⟨r, hr⟩ := scanEvent_defined melody (hwf ev hev) hlen
    exact ⟨r, hr, by rw [scanEvent_length hr, hlen]⟩
  · obtain ⟨r, hr⟩ := scanFrom_defined events initState [] hwf initState_length
    exact ⟨r.2, by simp only [convertToMelody, hr, Option.map_some']⟩

set_option maxRecDepth 4000 in
/-- The stream `[on(127) at 0, off(127) at 3]` uses index 127 and yields
`[(127, 0, 3)]`. -/
theorem table_access_in_bounds_witness :
    tableIndex ⟨0, [0x90, 127, 100]⟩ = some 127 ∧
    convertToMelody [⟨0, [0x90, 127, 100]⟩, ⟨3, [0x80, 127, 0]⟩] = some [⟨0, 3, 127⟩] ∧
    ∃ out, convertToMelody [⟨0, [0x90, 127, 100]⟩, ⟨3, [0x80, 127, 0]⟩] = some out :=
  ⟨by decide, by decide,
   (table_access_in_bounds [⟨0, [0x90, 127, 100]⟩, ⟨3, [0x80, 127, 0]⟩]
     (by
       intro ev hev
       simp only [List.mem_cons, List.mem_singleton, List.not_mem_nil, or_false] at hev
       rcases hev with rfl | rfl
       · exact ⟨⟨0x90, by decide⟩, fun _ => ⟨by decide, 127, rfl, by decide⟩⟩
       · exact ⟨⟨0x80, by decide⟩, fun _ => ⟨by decide, 127, rfl, by decide⟩⟩)).2.2⟩

/-! ## Claims on cacheMelody -/

theorem printLoopKinds_erase (tpq : Int) :
    ∀ l : List Melody, (printLoopKinds tpq l).map Prod.snd = printLoop tpq l := by
  intro l
  induction l with
  | nil => rfl
  | cons a tl ih =>
    cases tl with
    | nil => rfl
    | cons b rest =>
      simp only [printLoopKinds, printLoop]
      split_ifs <;> simp [ih]

theorem printMelodyKinds_erase (melody : List Melody) (tpq : Int) :
    (printMelodyKinds melody tpq).map Prod.snd = (printMelody melody tpq).1 := by
  unfold printMelodyKinds printMelody
  cases melody.getLast? with
  | none => rfl
  | some last => simp [printLoopKinds_erase]

theorem cacheLoop_eq_notes (tpq : Int) :
    ∀ l : List Melody,
      cacheLoop l =
        ((printLoopKinds tpq l).filter (fun x => x.1 = LineKind.note)).map
          (fun x => x.2.pitch) := by
  intro l
  induction l with
  | nil => rfl
  | cons a tl ih =>
    cases tl with
    | nil => rfl
    | cons b rest =>
      simp only [printLoopKinds, cacheLoop]
      split_ifs <;> simp [ih, List.filter_cons]

theorem cacheLoop_eq_spec :
    ∀ l : List Melody, cacheLoop l = pitchesBeforeOnsetChange l := by
  intro l
  induction l with
  | nil => rfl
  | cons a tl ih =>
    cases tl with
    | nil => rfl
    | cons b rest =>
      unfold pitchesBeforeOnsetChange at ih ⊢
      simp only [cacheLoop, List.tail_cons, List.zip_cons_cons, List.filter_cons] at ih ⊢
      by_cases hd : b.tick - a.tick = 0
      · have hd1 : b.tick = a.tick := by omega
        simp [hd, hd1, ih]
      · have hd1 : b.tick ≠ a.tick := by omega
        simp [hd, hd1, ih]

/-- C19 (cacheMelody agrees with printMelody). For a list with last interval
`last` (so a non-empty list), the vector returned by `cacheMelody` is, in order,
the pitches of the note lines that `printMelody` prints for the same list, its
silence lines and its closing line left out; these are the pitches of exactly
the elements of the vector with the sentinel whose successor has a different
onset tick; and the value of `tpq` makes no difference. -/
theorem cacheMelody_agrees (melody : List Melody) (tpq tpq1 : Int) (last : Melody)
    (hlast : melody.getLast? = some last) :
    (cacheMelody melody tpq).1 =
      ((printMelodyKinds melody tpq1).filter (fun x => x.1 = LineKind.note)).map
        (fun x => x.2.pitch) ∧
    (printMelodyKinds melody tpq1).map Prod.snd = (printMelody melody tpq1).1 ∧
    (cacheMelody melody tpq).1 = pitchesBeforeOnsetChange (melody ++ [sentinel last]) ∧
    (cacheMelody melody tpq).1 = (cacheMelody melody tpq1).1 := by
  refine ⟨?_, printMelodyKinds_erase melody tpq1, ?_, ?_⟩
  · simp only [cacheMelody, printMelodyKinds, hlast]
    rw [cacheLoop_eq_notes tpq1]
    simp [List.filter_append]
  · simp only [cacheMelody, hlast]
    exact cacheLoop_eq_spec _
  · simp only [cacheMelody, hlast]

/-- For `(60, 0, 10)`, `(64, 0, 10)`, `(62, 20, 5)` the cache holds 64 and 62,
the pitches of the lines `(0,64)` and `(20,62)`; the silence `(10,0)` and the
closing line `(25,0)` are no note lines. -/
theorem cacheMelody_agrees_witness :
    (cacheMelody [⟨0, 10, 60⟩, ⟨0, 10, 64⟩, ⟨20, 5, 62⟩] 120).1 = [64, 62] ∧
    (printMelody [⟨0, 10, 60⟩, ⟨0, 10, 64⟩, ⟨20, 5, 62⟩] 1).1 =
      [⟨0, 64⟩, ⟨10, 0⟩, ⟨20, 62⟩, ⟨25, 0⟩] := by
  obtain ⟨-, h2, h3, -⟩ :=
    cacheMelody_agrees [⟨0, 10, 60⟩, ⟨0, 10, 64⟩, ⟨20, 5, 62⟩] 120 1 ⟨20, 5, 62⟩ (by simp)
  constructor
  · rw [h3]; decide
  · rw [← h2]
    norm_num [printMelodyKinds, printLoopKinds, sentinel]

/-! ## Claims on the emission direction -/

theorem roundNearestEven_intCast (n : Int) : roundNearestEven (n : ℚ) = n := by
  unfold roundNearestEven
  simp

theorem roundNearestEven_add_half (n : Int) :
    roundNearestEven ((n : ℚ) + 1 / 2) = if n % 2 = 0 then n else n + 1 := by
  have hf : ⌊(n : ℚ) + 1 / 2⌋ = n := by
    rw [Int.floor_eq_iff]
    constructor <;> norm_num
  unfold roundNearestEven
  simp only [hf]
  have h1 : ¬ ((n : ℚ) + 1 / 2 - (n : ℚ) < 1 / 2) := by norm_num
  have h2 : ¬ ((1 : ℚ) / 2 < (n : ℚ) + 1 / 2 - (n : ℚ)) := by norm_num
  rw [if_neg h1, if_neg h2]

theorem roundF32_zero : roundF32 0 = 0 := by
  simp [roundF32]

theorem roundF32_of_binade {q : ℚ} (e : Int) (hq : 0 < q)
    (hlo : (2 : ℚ) ^ (e + 23) ≤ q) (hhi : q < (2 : ℚ) ^ (e + 24)) (he : -149 ≤ e) :
    roundF32 q = (roundNearestEven (q / 2 ^ e) : ℚ) * 2 ^ e := by
  have hlog : Int.log 2 q = e + 23 := by
    apply le_antisymm
    · have h : (q < ((2 : ℕ) : ℚ) ^ (e + 24) ↔ Int.log 2 q < e + 24) :=
        Int.lt_zpow_iff_log_lt (by norm_num) hq
      have := h.mp (by exact_mod_cast hhi)
      omega
    · have h : (((2 : ℕ) : ℚ) ^ (e + 23) ≤ q ↔ e + 23 ≤ Int.log 2 q) :=
        Int.zpow_le_iff_le_log (by norm_num) hq
      exact h.mp (by exact_mod_cast hlo)
  unfold roundF32
  rw [if_neg (ne_of_gt hq), abs_of_pos hq, hlog, if_pos hq]
  have hmax : max (e + 23 - 23) (-149) = e := by
    rw [max_eq_left (by omega)]; omega
  simp only [hmax, one_mul]

theorem roundF32_exact (m : Nat) (k : Int) (hm0 : 0 < m) (hm : m < 2 ^ 24) (hk : -149 ≤ k) :
    roundF32 ((m : ℚ) * 2 ^ k) = (m : ℚ) * 2 ^ k := by
  have hq : (0 : ℚ) < (m : ℚ) * 2 ^ k := by positivity
  have hlo : ((2 : ℕ) : ℚ) ^ Int.log 2 ((m : ℚ) * 2 ^ k) ≤ (m : ℚ) * 2 ^ k :=
    Int.zpow_log_le_self (by norm_num) hq
  have hkL : Int.log 2 ((m : ℚ) * 2 ^ k) - 23 ≤ k := by
    by_contra hcon
    have h1 : k + 24 ≤ Int.log 2 ((m : ℚ) * 2 ^ k) := by omega
    have h2 : (2 : ℚ) ^ (k + 24) ≤ (2 : ℚ) ^ Int.log 2 ((m : ℚ) * 2 ^ k) :=
      zpow_le_zpow_right₀ (by norm_num) h1
    have h3 : (m : ℚ) * 2 ^ k < (2 : ℚ) ^ (k + 24) := by
      have hm1 : (m : ℚ) < 2 ^ (24 : ℕ) := by exact_mod_cast hm
      have hpos : (0 : ℚ) < 2 ^ k := by positivity
      rw [zpow_add₀ (by norm_num : (2 : ℚ) ≠ 0), mul_comm ((2 : ℚ) ^ k)]
      have : ((2 : ℚ) ^ (24 : ℤ)) = 2 ^ (24 : ℕ) := by norm_num
      rw [this]
      exact mul_lt_mul_of_pos_right hm1 hpos
    have hlo1 : (2 : ℚ) ^ Int.log 2 ((m : ℚ) * 2 ^ k) ≤ (m : ℚ) * 2 ^ k := by
      exact_mod_cast hlo
    linarith
  obtain ⟨n, hn⟩ : ∃ n : ℕ, k = max (Int.log 2 ((m : ℚ) * 2 ^ k) - 23) (-149) + n :=
    ⟨(k - max (Int.log 2 ((m : ℚ) * 2 ^ k) - 23) (-149)).toNat, by
      have : max (Int.log 2 ((m : ℚ) * 2 ^ k) - 23) (-149) ≤ k := max_le hkL hk
      omega⟩
  unfold roundF32
  rw [if_neg (ne_of_gt hq), abs_of_pos hq, if_pos hq]
  simp only [one_mul]
  generalize max (Int.log 2 ((m : ℚ) * 2 ^ k) - 23) (-149) = e at hn
  have hdiv : (m : ℚ) * 2 ^ k / 2 ^ e = (((m * 2 ^ n : ℕ) : ℤ) : ℚ) := by
    rw [hn, zpow_add₀ (by norm_num : (2 : ℚ) ≠ 0), zpow_natCast]
    have hpos : (2 : ℚ) ^ e ≠ 0 := by positivity
    field_simp
    ring
  rw [hdiv, roundNearestEven_intCast]
  rw [hn, zpow_add₀ (by norm_num : (2 : ℚ) ≠ 0), zpow_natCast]
  push_cast
  ring

theorem roundF32_natCast (m : Nat) (hm : m < 2 ^ 24) : roundF32 (m : ℚ) = (m : ℚ) := by
  rcases Nat.eq_zero_or_pos m with h0 | h0
  · subst h0; simpa using roundF32_zero
  · have h := roundF32_exact m 0 h0 hm (by decide)
    simpa using h

theorem toUchar_of_byte {x : Int} (h0 : 0 ≤ x) (h1 : x ≤ 255) : ((toUchar x : Nat) : Int) = x := by
  unfold toUchar
  omega

theorem add_note_eq (fl : ℚ → ℚ) (file : List AddedEvent) (channel : Int) (note : Note)
    (time : ℚ) :
    add_note fl file channel note time =
      file ++ [{ channel := 1, time := fl (time * 120),
                 midievent := [0x90, toUchar note.tone, toUchar note.vel] },
               { channel := 1, time := fl (fl (time + note.length) * 120),
                 midievent := [0x80, toUchar note.tone, toUchar note.vel] }] := by
  simp [add_note, note_on, note_off, addEvent, TPQ]

theorem add_notes_eq (fl : ℚ → ℚ) (channel : Int) (time : ℚ) (notes : List Note) :
    ∀ file : List AddedEvent,
      add_notes fl file channel notes time =
        file ++ notes.flatMap (fun x =>
          [{ channel := 1, time := fl (time * 120),
             midievent := [0x90, toUchar x.tone, toUchar x.vel] },
           { channel := 1, time := fl (fl (time + x.length) * 120),
             midievent := [0x80, toUchar x.tone, toUchar x.vel] }]) := by
  induction notes with
  | nil => intro file; simp [add_notes]
  | cons x rest ih =>
    intro file
    have h := ih (add_note fl file channel x time)
    unfold add_notes at h ⊢
    rw [List.foldl_cons, h, add_note_eq]
    simp

theorem placedEvents_cons (c : Chord) (cs : List Chord) (t0 : ℚ) :
    placedEvents (c :: cs) t0 =
      c.chord.flatMap (fun x =>
        [(t0 * 120, [0x90, x.tone, x.vel]), ((t0 + x.length) * 120, [0x80, x.tone, x.vel])]) ++
      placedEvents cs (t0 + c.length) := by
  unfold placedEvents
  rw [List.length_cons, List.range_succ_eq_map, List.flatMap_cons, List.flatMap_map]
  simp [Function.comp_def, add_assoc]

/-- The messages of one chord, read as integers, when tone and velocity are
byte values. -/
theorem chord_messages (t : ℚ) (notes : List Note)
    (hbytes : ∀ x ∈ notes, 0 ≤ x.tone ∧ x.tone ≤ 255 ∧ 0 ≤ x.vel ∧ x.vel ≤ 255) :
    (notes.flatMap (fun x =>
        ([{ channel := 1, time := t * 120,
            midievent := [0x90, toUchar x.tone, toUchar x.vel] },
          { channel := 1, time := (t + x.length) * 120,
            midievent := [0x80, toUchar x.tone, toUchar x.vel] }] : List AddedEvent))).map
      (fun e => (e.time, e.midievent.map (fun b => (b : Int)))) =
    notes.flatMap (fun x =>
      [(t * 120, [0x90, x.tone, x.vel]), ((t + x.length) * 120, [0x80, x.tone, x.vel])]) := by
  induction notes with
  | nil => rfl
  | cons x rest ih =>
    obtain ⟨h1, h2, h3, h4⟩ := hbytes x (List.mem_cons_self _ _)
    have ih1 := ih (fun y hy => hbytes y (List.mem_cons_of_mem _ hy))
    simp only [List.flatMap_cons, List.map_append, ih1]
    simp [toUchar_of_byte h1 h2, toUchar_of_byte h3 h4]

theorem progression_fold (channel : Int) (cs : List Chord) :
    ∀ (file : List AddedEvent) (t : ℚ),
      (∀ c ∈ cs, ∀ x ∈ c.chord, 0 ≤ x.tone ∧ x.tone ≤ 255 ∧ 0 ≤ x.vel ∧ x.vel ≤ 255) →
      ∃ added,
        (cs.foldl
          (fun (st : List AddedEvent × ℚ) c =>
            (add_notes (fun q => q) st.1 channel c.chord st.2, st.2 + c.length))
          (file, t)).1 = file ++ added ∧
        added.map (fun e => (e.time, e.midievent.map (fun b => (b : Int)))) =
          placedEvents cs t := by
  induction cs with
  | nil => intro file t _; exact ⟨[], by simp, by simp [placedEvents]⟩
  | cons c rest ih =>
    intro file t hbytes
    obtain ⟨added, h1, h2⟩ := ih (add_notes (fun q => q) file channel c.chord t) (t + c.length)
      (fun c1 hc1 => hbytes c1 (List.mem_cons_of_mem _ hc1))
    rw [add_notes_eq] at h1
    refine ⟨c.chord.flatMap (fun x =>
        [{ channel := 1, time := t * 120,
           midievent := [0x90, toUchar x.tone, toUchar x.vel] },
         { channel := 1, time := (t + x.length) * 120,
           midievent := [0x80, toUchar x.tone, toUchar x.vel] }]) ++ added, ?_, ?_⟩
    · rw [List.foldl_cons, add_notes_eq]
      simp only
      rw [h1, List.append_assoc]
    · rw [List.map_append, h2, placedEvents_cons,
        chord_messages t c.chord (hbytes c (List.mem_cons_self _ _))]

/-- C15 (progression placement). With the times taken as exact rationals and
tone and velocity of every note a byte value (0 to 255, stored unchanged), what
`add_progression` adds to the file is, message by message and in this order:
for every chord `c_k` and every note `x` of `c_k`, one note-on event (status
0x90, data `x.tone`, `x.vel`) at time `(t0 + sum of the lengths of
c_0 .. c_(k-1)) * 120` and one note-off event (status 0x80) at time
`(t0 + that sum + x.length) * 120`. -/
theorem progression_placement (file : List AddedEvent) (channel : Int)
    (cp : ChordProgression) (t0 : ℚ)
    (hbytes : ∀ c ∈ cp.cp, ∀ x ∈ c.chord,
      0 ≤ x.tone ∧ x.tone ≤ 255 ∧ 0 ≤ x.vel ∧ x.vel ≤ 255) :
    ∃ added, add_progression (fun q => q) file channel cp t0 = file ++ added ∧
      added.map (fun e => (e.time, e.midievent.map (fun b => (b : Int)))) =
        placedEvents cp.cp t0 := by
  unfold add_progression
  exact progression_fold channel cp.cp file t0 hbytes

/-- Two chords from time 1: the notes 60 and 64 of the first chord (length 2)
both start at tick 120, the note 67 of the second at tick `(1 + 2) * 120`. -/
theorem progression_placement_witness :
    (add_progression (fun q => q) [] 5
        ⟨[⟨[⟨60, 100, 2⟩, ⟨64, 90, 1⟩], 2⟩, ⟨[⟨67, 80, 1⟩], 1⟩]⟩ 1).map
      (fun e => (e.time, e.midievent.map (fun b => (b : Int)))) =
      [(120, [0x90, 60, 100]), (360, [0x80, 60, 100]),
       (120, [0x90, 64, 90]), (240, [0x80, 64, 90]),
       (360, [0x90, 67, 80]), (480, [0x80, 67, 80])] := by
  obtain ⟨added, h1, h2⟩ := progression_placement [] 5
    ⟨[⟨[⟨60, 100, 2⟩, ⟨64, 90, 1⟩], 2⟩, ⟨[⟨67, 80, 1⟩], 1⟩]⟩ 1
    (by
      intro c hc x hx
      simp only [List.mem_cons, List.mem_singleton, List.not_mem_nil, or_false] at hc
      rcases hc with rfl | rfl
      · simp only [List.mem_cons, List.mem_singleton, List.not_mem_nil, or_false] at hx
        rcases hx with rfl | rfl <;> decide
      · simp only [List.mem_cons, List.mem_singleton, List.not_mem_nil, or_false] at hx
        subst hx; decide)
  rw [h1, List.nil_append, h2]
  norm_num [placedEvents, List.range_succ]

theorem roundF32_one : roundF32 1 = 1 := by
  simpa using roundF32_natCast 1 (by norm_num)

theorem roundF32_120 : roundF32 120 = 120 := by
  simpa using roundF32_natCast 120 (by norm_num)

/-- C16 (add_note adds the note to the channel it is given) does not hold:
`add_note` passes the literal 1 to `note_on` and `note_off`, whatever its
parameter `channel` is. Called with channel 0, `add_note`, `add_notes`,
`add_consecutive_notes` and `add_progression` all add their events with the
channel argument 1. -/
theorem add_note_ignores_channel :
    (∀ (fl : ℚ → ℚ) (file : List AddedEvent) (channel : Int) (note : Note) (time : ℚ),
      add_note fl file channel note time = add_note fl file 1 note time) ∧
    add_note roundF32 [] 0 ⟨60, 100, 1⟩ 0 =
      [⟨1, 0, [0x90, 60, 100]⟩, ⟨1, 120, [0x80, 60, 100]⟩] ∧
    add_notes roundF32 [] 0 [⟨60, 100, 1⟩] 0 =
      [⟨1, 0, [0x90, 60, 100]⟩, ⟨1, 120, [0x80, 60, 100]⟩] ∧
    add_consecutive_notes roundF32 [] 0 [⟨60, 100, 1⟩] 0 =
      [⟨1, 0, [0x90, 60, 100]⟩, ⟨1, 120, [0x80, 60, 100]⟩] ∧
    add_progression roundF32 [] 0 ⟨[⟨[⟨60, 100, 1⟩], 1⟩]⟩ 0 =
      [⟨1, 0, [0x90, 60, 100]⟩, ⟨1, 120, [0x80, 60, 100]⟩] := by
  have u60 : toUchar 60 = 60 := by decide
  have u100 : toUchar 100 = 100 := by decide
  refine ⟨fun _ _ _ _ _ => rfl, ?_, ?_, ?_, ?_⟩ <;>
    simp [add_progression, add_consecutive_notes, add_notes, add_note, note_on, note_off,
      addEvent, TPQ, roundF32_zero, roundF32_one, roundF32_120, u60, u100]

/-- A note-on for `P` at a tick other than -1 and then a note-off for `P`: the
scan of the two events yields the one interval between them. -/
theorem convertToMelody_on_off (P : Nat) (hP : P ≤ 127) (e1 e2 : MidiEvent)
    (h1 : IsNoteOn e1 P) (h2 : IsNoteOff e2 P) (hT : e1.tick ≠ -1) :
    convertToMelody [e1, e2] =
      some [{ tick := e1.tick, duration := e2.tick - e1.tick, pitch := (P : Int) }] := by
  have s1 : scanEvent initState [] e1 = some (initState.set P e1.tick, []) :=
    scanEvent_noteOn initState [] h1 (by rw [initState_length]; omega)
  have hget : (initState.set P e1.tick)[P]? = some e1.tick :=
    List.getElem?_set_self (by rw [initState_length]; omega)
  have s2 : scanEvent (initState.set P e1.tick) [] e2 =
      some ((initState.set P e1.tick).set P (-1),
        [] ++ [{ tick := e1.tick, duration := e2.tick - e1.tick, pitch := (P : Int) }]) := by
    rw [scanEvent_noteOff _ _ h2]
    exact noteoff_active [] e2.tick hget hT
  simp only [convertToMelody, scanFrom, s1, s2, Option.map_some', List.nil_append]

theorem command_cons_0x90 (tick : Int) (data : List Nat) :
    command { tick := tick, bytes := 0x90 :: data } = some 0x90 := by
  simp only [command, List.getElem?_cons_zero, Option.map_some']
  decide

theorem command_cons_0x80 (tick : Int) (data : List Nat) :
    command { tick := tick, bytes := 0x80 :: data } = some 0x80 := by
  simp only [command, List.getElem?_cons_zero, Option.map_some']
  decide

theorem toTick_intCast (n : Int) : toTick (n : ℚ) = n := by
  unfold toTick
  split_ifs <;> simp

theorem roundF32_16777245 : roundF32 16777245 = 16777244 := by
  rw [roundF32_of_binade 1 (by norm_num) (by norm_num) (by norm_num) (by decide)]
  have h : (16777245 : ℚ) / 2 ^ (1 : ℤ) = ((8388622 : ℤ) : ℚ) + 1 / 2 := by norm_num
  rw [h, roundNearestEven_add_half]
  norm_num

theorem roundF32_exact0 (m : Nat) (k : Int) (hm : m < 2 ^ 24) (hk : -149 ≤ k) :
    roundF32 ((m : ℚ) * 2 ^ k) = (m : ℚ) * 2 ^ k := by
  rcases Nat.eq_zero_or_pos m with h0 | h0
  · subst h0; simpa using roundF32_zero
  · exact roundF32_exact m k h0 hm hk

/-- The three `float` results of `add_note` are exact in binary32 when the
start time and the length are multiples of 1/8 (as every `float` is whose
product with 120 is an integer) and the end tick stays below `2^24`. -/
theorem add_note_times_exact (j l : Nat) (h : 15 * (j + l) < 2 ^ 24) :
    roundF32 ((j : ℚ) / 8 * 120) = (j : ℚ) / 8 * 120 ∧
    roundF32 ((j : ℚ) / 8 + (l : ℚ) / 8) = (j : ℚ) / 8 + (l : ℚ) / 8 ∧
    roundF32 (((j : ℚ) / 8 + (l : ℚ) / 8) * 120) = ((j : ℚ) / 8 + (l : ℚ) / 8) * 120 := by
  have e1 : (j : ℚ) / 8 * 120 = ((15 * j : ℕ) : ℚ) * 2 ^ (0 : ℤ) := by
    push_cast; ring
  have e2 : (j : ℚ) / 8 + (l : ℚ) / 8 = ((j + l : ℕ) : ℚ) * 2 ^ (-3 : ℤ) := by
    push_cast; norm_num [zpow_neg]; ring
  have e3 : ((j : ℚ) / 8 + (l : ℚ) / 8) * 120 = ((15 * (j + l) : ℕ) : ℚ) * 2 ^ (0 : ℤ) := by
    push_cast; ring
  refine ⟨?_, ?_, ?_⟩
  · rw [e1]; exact roundF32_exact0 _ _ (by omega) (by decide)
  · rw [e2]; exact roundF32_exact0 _ _ (by omega) (by decide)
  · rw [e3]; exact roundF32_exact0 _ _ (by omega) (by decide)

set_option maxRecDepth 4000 in
/-- C17, as the claim states it, fails where a `float` product is rounded. The
start time 139810.375 is a `float`, its product with 120 is the integer
16777245, the length is 0; the source computes the product in binary32 as
16777244, so the interval that comes back starts at tick 16777244, not at
`t * 120`. -/
theorem emission_roundtrip_counterexample :
    roundF32 (1118483 / 8) = 1118483 / 8 ∧
    ((1118483 : ℚ) / 8) * 120 = ((16777245 : Int) : ℚ) ∧
    storedEvents (add_note roundF32 [] 1 ⟨60, 100, 0⟩ (1118483 / 8)) =
      [⟨16777244, [0x90, 60, 100]⟩, ⟨16777244, [0x80, 60, 100]⟩] ∧
    convertToMelody (storedEvents (add_note roundF32 [] 1 ⟨60, 100, 0⟩ (1118483 / 8))) =
      some [{ tick := 16777244, duration := 0, pitch := 60 }] ∧
    convertToMelody (storedEvents (add_note roundF32 [] 1 ⟨60, 100, 0⟩ (1118483 / 8))) ≠
      some [{ tick := 16777245, duration := 0, pitch := 60 }] := by
  have ht : roundF32 (1118483 / 8) = 1118483 / 8 := by
    have h := roundF32_exact0 1118483 (-3) (by norm_num) (by decide)
    have e : ((1118483 : ℕ) : ℚ) * 2 ^ (-3 : ℤ) = 1118483 / 8 := by norm_num [zpow_neg]
    rwa [e] at h
  have hprod : ((1118483 : ℚ) / 8) * 120 = 16777245 := by norm_num
  have u60 : toUchar 60 = 60 := by decide
  have u100 : toUchar 100 = 100 := by decide
  have hcast : (16777244 : ℚ) = ((16777244 : Int) : ℚ) := by norm_num
  have hstored : storedEvents (add_note roundF32 [] 1 ⟨60, 100, 0⟩ (1118483 / 8)) =
      [⟨16777244, [0x90, 60, 100]⟩, ⟨16777244, [0x80, 60, 100]⟩] := by
    rw [add_note_eq]
    simp only [storedEvents, List.nil_append, List.map_cons, List.map_nil, add_zero, ht, hprod,
      roundF32_16777245, u60, u100]
    rw [hcast, toTick_intCast]
  refine ⟨ht, by norm_num, hstored, ?_, ?_⟩
  · rw [hstored]; decide
  · rw [hstored]; decide

/-- C17 (emission, then reconstruction), amended. For a note with tone from 0
to 127 and velocity from 1 to 127, a start time `t` and a length `L` that are
not negative and whose products with 120 are the integers `T` and `D`: when the
three `float` operations of `add_note`, `t * 120`, `t + L` and `(t + L) * 120`,
give their exact results, the two events that `add_note` adds, read back and
scanned by `convertToMelody`, yield exactly the interval
`(pitch = tone, tick = T, duration = D)`, and `D` is not negative. -/
theorem emission_roundtrip (fl : ℚ → ℚ) (note : Note) (channel : Int) (t : ℚ) (T D : Int)
    (htone0 : 0 ≤ note.tone) (htone : note.tone ≤ 127)
    (hv1 : 1 ≤ note.vel) (hv2 : note.vel ≤ 127)
    (ht : 0 ≤ t) (hL : 0 ≤ note.length)
    (hT : (T : ℚ) = t * 120) (hD : (D : ℚ) = note.length * 120)
    (hfl1 : fl (t * 120) = t * 120)
    (hfl2 : fl (t + note.length) = t + note.length)
    (hfl3 : fl ((t + note.length) * 120) = (t + note.length) * 120) :
    storedEvents (add_note fl [] channel note t) =
      [{ tick := T, bytes := [0x90, toUchar note.tone, toUchar note.vel] },
       { tick := T + D, bytes := [0x80, toUchar note.tone, toUchar note.vel] }] ∧
    convertToMelody (storedEvents (add_note fl [] channel note t)) =
      some [{ tick := T, duration := D, pitch := note.tone }] ∧
    0 ≤ D := by
  have hT0 : 0 ≤ T := by
    have : (0 : ℚ) ≤ (T : ℚ) := by rw [hT]; positivity
    exact_mod_cast this
  have hD0 : 0 ≤ D := by
    have : (0 : ℚ) ≤ (D : ℚ) := by rw [hD]; positivity
    exact_mod_cast this
  have hTD : ((T + D : Int) : ℚ) = (t + note.length) * 120 := by
    push_cast; rw [hT, hD]; ring
  have hstored : storedEvents (add_note fl [] channel note t) =
      [{ tick := T, bytes := [0x90, toUchar note.tone, toUchar note.vel] },
       { tick := T + D, bytes := [0x80, toUchar note.tone, toUchar note.vel] }] := by
    rw [add_note_eq]
    simp only [storedEvents, List.nil_append, List.map_cons, List.map_nil]
    rw [hfl1, hfl2, hfl3, ← hT, ← hTD, toTick_intCast, toTick_intCast]
  refine ⟨hstored, ?_, hD0⟩
  rw [hstored]
  have htn : ((toUchar note.tone : Nat) : Int) = note.tone :=
    toUchar_of_byte htone0 (by omega)
  have hvn : ((toUchar note.vel : Nat) : Int) = note.vel :=
    toUchar_of_byte (by omega) (by omega)
  have h := convertToMelody_on_off (toUchar note.tone) (by omega)
    { tick := T, bytes := [0x90, toUchar note.tone, toUchar note.vel] }
    { tick := T + D, bytes := [0x80, toUchar note.tone, toUchar note.vel] }
    ⟨command_cons_0x90 T _, rfl, toUchar note.vel, rfl, by omega⟩
    (Or.inl ⟨command_cons_0x80 (T + D) _, rfl⟩)
    (by simp only; omega)
  rw [htn] at h
  simpa using h

/-- The note of tone 60, velocity 100 and length 1/2 added at time 1/4, the
products computed in binary32, comes back as the interval `(60, 30, 60)`. -/
theorem emission_roundtrip_witness :
    convertToMelody (storedEvents (add_note roundF32 [] 3 ⟨60, 100, 1 / 2⟩ (1 / 4))) =
      some [{ tick := 30, duration := 60, pitch := 60 }] := by
  have hx := add_note_times_exact 2 4 (by norm_num)
  have e1 : ((2 : ℕ) : ℚ) / 8 = 1 / 4 := by norm_num
  have e2 : ((4 : ℕ) : ℚ) / 8 = 1 / 2 := by norm_num
  rw [e1, e2] at hx
  exact (emission_roundtrip roundF32 ⟨60, 100, 1 / 2⟩ 3 (1 / 4) 30 60 (by decide) (by decide)
    (by decide) (by decide) (by norm_num) (by norm_num) (by norm_num) (by norm_num)
    hx.1 hx.2.1 hx.2.2).2.1

end Midi2Melody
